import Mathlib

/-! go-btsg/genesis-tools: staked-balance export and genesis upgrade.

A shallow embedding of the two command bodies of the repository that carry data-flow logic:

* `ExportStakedBalancesCmd` (`cmd/bitsongd/cmd/analyse_state_export.go`): the delegation loop
  that aggregates staked tokens per delegator, the threshold filter with the USD valuation, and
  the stable ranking;
* `ExportUpgradedGenesisCmd` (`cmd/genutils/cmd/export_new_genesis.go` and
  `cmd/bitsongd/cmd/export_new_genesis.go`): the auth step, the bank funding step, the staking
  and distribution rewrites, and the error that the command and `writeGenStateToPath` return.

The numeric types come from the cosmos-sdk (`sdk.Int`, `sdk.Dec`, `sdk.Coins`).  `sdk.Int` is an
arbitrary-precision integer and is embedded as `Int`; `sdk.Dec` is a fixed-point number with 18
decimals kept as a raw integer.  A panic of a command body is embedded as `none`: the division
by zero shares, the zero-value validator of a failed map lookup, and the range guards of the
sdk, which panic with `Int overflow` once a decimal result has more than 315 bits or an integer
result more than 256 bits.  The guards are the checks `checkDec` and `checkInt`; the delegation
loop runs them after every operation, in the order of the source.  The valuation of the filter
cannot reach them for a staked amount in the range of `sdk.Int` (`usdValue_checks_pass`) and is
written without them, and so is the coin arithmetic of the bank step.
-/

namespace GenesisTools

/-! ## cosmos-sdk decimals (`types/decimal.go`) -/

namespace Sdk

/-- The type `sdk.Dec`: the raw integer `i` stands for the number `i / 10^18`. -/
structure Dec where
  i : Int
deriving DecidableEq, Repr

/-- The constant `precisionReuse = 10^Precision` with `Precision = 18`. -/
def precisionReuse : Int := 1000000000000000000

/-- The constant `fivePrecision = precisionReuse / 2`. -/
def fivePrecision : Int := 500000000000000000

/-- The non-negative branch of `chopPrecisionAndRound`: `QuoRem` by `precisionReuse`, then the
remainder is compared with `fivePrecision`; on a tie the quotient moves to the even neighbour
(`quo.Bit(0) == 0` keeps it). -/
def chopNonneg (d : Int) : Int :=
  let quo := d / precisionReuse
  let rem := d % precisionReuse
  if rem = 0 then quo
  else if rem < fivePrecision then quo
  else if fivePrecision < rem then quo + 1
  else if quo % 2 = 0 then quo
  else quo + 1

/-- The function `chopPrecisionAndRound`: a negative argument is negated, chopped and negated
back; otherwise the non-negative branch runs. -/
def chopPrecisionAndRound (d : Int) : Int :=
  if d < 0 then -(chopNonneg (-d)) else chopNonneg d

/-- The constructor `sdk.NewDec(i)`: the integer `i` as a decimal. -/
def NewDec (n : Int) : Dec := ⟨n * precisionReuse⟩

/-- The constructor `sdk.NewDecWithPrec(i, prec)`: `i / 10^prec`, for `prec ≤ 18`. -/
def NewDecWithPrec (n : Int) (prec : Nat) : Dec := ⟨n * 10 ^ (18 - prec)⟩

/-- The conversion `Int.ToDec` (`NewDecFromInt`). -/
def ToDec (n : Int) : Dec := ⟨n * precisionReuse⟩

/-- The constant `sdk.OneDec()`. -/
def OneDec : Dec := ⟨precisionReuse⟩

/-- The bound `2^maxBitLen` of an `sdk.Int`, with `maxBitLen = 256`. -/
def intBound : Nat :=
  115792089237316195423570985008687907853269984665640564039457584007913129639936

/-- The bound `2^maxDecBitLen` of an `sdk.Dec`, with `maxDecBitLen = 315`. -/
def decBound : Nat :=
  66749594872528440074844428317798503581334516323645399060845050244444366430645017188217565216768

/-- The range guard of `Dec.Mul`, `Dec.MulInt` and `Dec.Quo` on their result,
`if x.BitLen() > maxDecBitLen { panic("Int overflow") }`: `none` for the panic, that is for a
magnitude of `2^315` or more. -/
def checkDec (d : Dec) : Option Dec :=
  if decBound ≤ d.i.natAbs then none else some d

/-- The range guard of `Int.Add` and of `NewIntFromBigInt` (behind `Dec.RoundInt`) on their
result, `if x.BitLen() > maxBitLen { panic(...) }`: `none` for the panic, that is for a
magnitude of `2^256` or more. -/
def checkInt (n : Int) : Option Int :=
  if intBound ≤ n.natAbs then none else some n

/-- The arithmetic of the method `Dec.Mul`: the raw product, chopped back to 18 decimals with
rounding.  The method ends with the guard `checkDec`. -/
def Dec.Mul (d d2 : Dec) : Dec := ⟨chopPrecisionAndRound (d.i * d2.i)⟩

/-- The arithmetic of the method `Dec.MulInt`: the raw integer times an `sdk.Int`; no rounding
takes place.  The method ends with the guard `checkDec`. -/
def Dec.MulInt (d : Dec) (n : Int) : Dec := ⟨d.i * n⟩

/-- The arithmetic of the method `Dec.Quo`: the raw integer is scaled by `precisionReuse`
twice, divided with `big.Int.Quo` (truncation towards zero, a panic on a zero divisor: `none`)
and chopped back to 18 decimals with rounding.  The method ends with the guard `checkDec`. -/
def Dec.Quo (d d2 : Dec) : Option Dec :=
  if d2.i = 0 then none
  else some ⟨chopPrecisionAndRound (Int.tdiv (d.i * precisionReuse * precisionReuse) d2.i)⟩

/-- The arithmetic of the method `Dec.RoundInt`: the decimal rounded to an integer by
`chopPrecisionAndRound`.  The method hands the result to `NewIntFromBigInt`, whose guard is
`checkInt`. -/
def Dec.RoundInt (d : Dec) : Int := chopPrecisionAndRound d.i

/-- The loop of `Dec.Power`: while `i > 1`, an odd `i` multiplies `tmp` by `d`, then `i` is
halved and `d` squared.  The fuel bounds the number of rounds (64 for a `uint64`). -/
def powerLoop : Nat → Nat → Dec → Dec → Dec × Dec
  | 0, _, d, tmp => (d, tmp)
  | fuel + 1, i, d, tmp =>
    if 1 < i then
      powerLoop fuel (i / 2) (d.Mul d) (if i % 2 ≠ 0 then tmp.Mul d else tmp)
    else (d, tmp)

/-- The method `Dec.Power` for a `uint64` exponent. -/
def Dec.Power (d : Dec) (power : Nat) : Dec :=
  if power = 0 then OneDec
  else
    let r := powerLoop 64 power d OneDec
    r.1.Mul r.2

end Sdk

/-! ## Go maps -/

/-- A Go `map[string]V`: an association list with distinct keys.  The list order is the order
of first insertion; Go itself fixes no iteration order, so every consumer that ranges over a map
takes the visiting sequence as an argument of its own. -/
abbrev GoMap (V : Type) := List (String × V)

/-- The lookup `v, ok := m[k]`. -/
def mapGet {V : Type} : GoMap V → String → Option V
  | [], _ => none
  | (k', v) :: rest, k => if k' = k then some v else mapGet rest k

/-- The store `m[k] = v`: an existing key keeps its place and gets the new value, a new key is
added. -/
def mapSet {V : Type} : GoMap V → String → V → GoMap V
  | [], k, v => [(k, v)]
  | (k', v') :: rest, k, v => if k' = k then (k, v) :: rest else (k', v') :: mapSet rest k v

/-- The keys of a map. -/
def mapKeys {V : Type} (m : GoMap V) : List String := m.map Prod.fst

/-! ## Staking state (`x/staking/types`) -/

/-- The bond status of a validator. -/
inductive BondStatus where
  | Unspecified
  | Unbonded
  | Unbonding
  | Bonded
deriving DecidableEq, Repr

/-- The commission rates of a validator (`types.NewCommission(rate, maxRate, maxChangeRate)`). -/
structure Commission where
  Rate : Sdk.Dec
  MaxRate : Sdk.Dec
  MaxChangeRate : Sdk.Dec
deriving DecidableEq, Repr

/-- The record `stakingtypes.Validator`, with the consensus key kept as the text it was packed
from (`none` for a nil `*codectypes.Any`) and the description reduced to its moniker. -/
structure Validator where
  OperatorAddress : String
  ConsensusPubkey : Option String
  Jailed : Bool
  Status : BondStatus
  Tokens : Int
  DelegatorShares : Sdk.Dec
  Moniker : String
  UnbondingHeight : Int
  Commission : Commission
  MinSelfDelegation : Int
deriving DecidableEq, Repr

/-- The record `stakingtypes.Delegation`. -/
structure Delegation where
  DelegatorAddress : String
  ValidatorAddress : String
  Shares : Sdk.Dec
deriving DecidableEq, Repr

/-- The record `stakingtypes.UnbondingDelegation`, reduced to its two addresses. -/
structure UnbondingDelegation where
  DelegatorAddress : String
  ValidatorAddress : String
deriving DecidableEq, Repr

/-- The fields of `stakingtypes.GenesisState` that the commands read or write. -/
structure StakingGenesis where
  Validators : List Validator
  Delegations : List Delegation
  UnbondingDelegations : List UnbondingDelegation
  Exported : Bool
deriving DecidableEq, Repr

/-! ## export-staked-balances: the delegation loop -/

/-- The record `DerivedAccount`. -/
structure DerivedAccount where
  Address : String
  Staked : Int
deriving DecidableEq, Repr

/-- The record `StakedAccount`. -/
structure StakedAccount where
  Address : String
  Staked : Int
  UsdValue : Int
deriving DecidableEq, Repr

/-- The function `newDerivedAccount`. -/
def newDerivedAccount (address : String) : DerivedAccount :=
  { Address := address, Staked := 0 }

/-- The validator index: `validators[validator.OperatorAddress] = validator` for every validator
of the staking state, in order (a later validator with the same operator address wins). -/
def validatorIndex (vals : List Validator) : GoMap Validator :=
  vals.foldl (fun m validator => mapSet m validator.OperatorAddress validator) []

/-- The expression `delegation.Shares.MulInt(val.Tokens).Quo(val.DelegatorShares).RoundInt()`,
each method with its range guard; `none` when a guard panics or `Quo` panics on zero delegator
shares. -/
def stakedTokens (delegation : Delegation) (val : Validator) : Option Int :=
  match Sdk.checkDec (delegation.Shares.MulInt val.Tokens) with
  | none => none
  | some mul =>
    match mul.Quo val.DelegatorShares with
    | none => none
    | some quo =>
      match Sdk.checkDec quo with
      | none => none
      | some quo => Sdk.checkInt quo.RoundInt

/-- The account a round of the delegation loop starts from: `acc, ok := snapshotAccs[address]`
and, when the address is not in the map, `acc = newDerivedAccount(address)`. -/
def accountOf (snapshotAccs : GoMap DerivedAccount) (address : String) : DerivedAccount :=
  match mapGet snapshotAccs address with
  | some a => a
  | none => newDerivedAccount address

/-- One round of the delegation loop.  The lookup `validators[delegation.ValidatorAddress]` of
an absent operator address yields the zero-value `Validator`, whose `Tokens` and
`DelegatorShares` hold nil `*big.Int`s: `MulInt` dereferences the nil pointer and the command
panics (`none`).  The sum `acc.Staked.Add(stakedOsmos)` runs the guard of `Int.Add`. -/
def delegationStep (validators : GoMap Validator) (snapshotAccs : GoMap DerivedAccount)
    (delegation : Delegation) : Option (GoMap DerivedAccount) :=
  let address := delegation.DelegatorAddress
  let acc := accountOf snapshotAccs address
  match mapGet validators delegation.ValidatorAddress with
  | none => none
  | some val =>
    match stakedTokens delegation val with
    | none => none
    | some stakedOsmos =>
      match Sdk.checkInt (acc.Staked + stakedOsmos) with
      | none => none
      | some staked => some (mapSet snapshotAccs address { acc with Staked := staked })

/-- The delegation loop from a given map of accounts. -/
def delegationLoop (validators : GoMap Validator) :
    GoMap DerivedAccount → List Delegation → Option (GoMap DerivedAccount)
  | snapshotAccs, [] => some snapshotAccs
  | snapshotAccs, delegation :: rest =>
    match delegationStep validators snapshotAccs delegation with
    | none => none
    | some next => delegationLoop validators next rest

/-- The aggregation of `ExportStakedBalancesCmd`: the validator index is built, then the
delegation loop runs from the empty map `snapshotAccs`. -/
def aggregate (stakingGenesis : StakingGenesis) : Option (GoMap DerivedAccount) :=
  delegationLoop (validatorIndex stakingGenesis.Validators) [] stakingGenesis.Delegations

/-! ## export-staked-balances: threshold filter, valuation and ranking -/

/-- The record `AssetInfo`. -/
structure AssetInfo where
  denom : String
  price : Sdk.Dec
  decimal : Nat
deriving DecidableEq, Repr

/-- The table `assetInfo`, with its one entry for `ubtsg` (price `0.1251`, 6 decimals). -/
def assetInfo : GoMap AssetInfo :=
  [("ubtsg", { denom := "btsg", decimal := 6, price := Sdk.NewDecWithPrec 1251 4 })]

/-- The valuation of one account inside the filter loop: `info := assetInfo["ubtsg"]`,
`decimalPow := sdk.NewDec(10).Power(uint64(info.decimal))`,
`usdValue := info.price.Mul(account.Staked.ToDec()).Quo(decimalPow)` and `usdValue.RoundInt()`.
The result is `none` where the Go code panics.  The range guards of `Mul`, `Quo` and `RoundInt`
are not written here: for a staked amount in the range of `sdk.Int` they pass
(`usdValue_checks_pass`). -/
def usdValue (staked : Int) : Option Int :=
  match mapGet assetInfo "ubtsg" with
  | none => none
  | some info =>
    let decimalPow := (Sdk.NewDec 10).Power info.decimal
    ((info.price.Mul (Sdk.ToDec staked)).Quo decimalPow).map Sdk.Dec.RoundInt

/-- The filter loop `for addr, account := range snapshotAccs`, run over the entries of the map
in the order `range` visits them: an account with `Staked.GTE(sdk.NewInt(400_000_000))` is
appended to `stakedAccs` with its valuation. -/
def filterLoop : List StakedAccount → List (String × DerivedAccount) →
    Option (List StakedAccount)
  | stakedAccs, [] => some stakedAccs
  | stakedAccs, (addr, account) :: rest =>
    if 400000000 ≤ account.Staked then
      match usdValue account.Staked with
      | none => none
      | some usd =>
        filterLoop (stakedAccs ++ [{ Address := addr, Staked := account.Staked, UsdValue := usd }])
          rest
    else filterLoop stakedAccs rest

/-- The filtered records: the filter loop from `stakedAccs := []StakedAccount{}`. -/
def filterStaked (visited : List (String × DerivedAccount)) : Option (List StakedAccount) :=
  filterLoop [] visited

/-- Insertion of one element into a list ordered by `less`, behind every element that is not
after it: the element passes the elements `b` with `less b a` and stops at the first other one. -/
def insertStable {α : Type} (less : α → α → Bool) (a : α) : List α → List α
  | [] => [a]
  | b :: l => if less b a then b :: insertStable less a l else a :: b :: l

/-- Go's `sort.SliceStable(xs, less)`, by its contract (the elements ordered by `less`, equal
elements in their original order), realised as an insertion sort. -/
def sliceStable {α : Type} (less : α → α → Bool) : List α → List α
  | [] => []
  | a :: l => insertStable less a (sliceStable less l)

/-- The comparison handed to `sort.SliceStable`: `stakedAccs[i].Staked.GT(stakedAccs[j].Staked)`. -/
def stakedGT (a b : StakedAccount) : Bool := decide (b.Staked < a.Staked)

/-- The ranked records of `ExportStakedBalancesCmd`: the filtered records after
`sort.SliceStable`.  The argument is the sequence in which `range` visits the aggregated map. -/
def rankedAccounts (visited : List (String × DerivedAccount)) : Option (List StakedAccount) :=
  (filterStaked visited).map (sliceStable stakedGT)

/-! ## Coins and the bank state (`types/coin.go`, `x/bank/types`) -/

/-- The record `sdk.Coin`. -/
structure Coin where
  Denom : String
  Amount : Int
deriving DecidableEq, Repr

/-- The type `sdk.Coins`. -/
abbrev Coins := List Coin

/-- The method `Coin.IsZero`. -/
def Coin.IsZero (c : Coin) : Bool := decide (c.Amount = 0)

/-- The method `Coin.Add`, for two coins of one denomination. -/
def Coin.Add (c c2 : Coin) : Coin := { Denom := c.Denom, Amount := c.Amount + c2.Amount }

/-- The function `removeZeroCoins`. -/
def removeZeroCoins (coins : Coins) : Coins := coins.filter (fun c => !c.IsZero)

/-- The test `strings.Compare(a, b) == -1`: `a` is before `b` in the lexicographic order of
their characters. -/
def denomLess (a b : String) : Bool := decide (a.data < b.data)

/-- The loop of `Coins.safeAdd`: a merge of two denomination-ordered lists by
`strings.Compare(coinA.Denom, coinB.Denom)`; equal denominations are added, zero coins are
left out.  The fuel bounds the number of rounds.  Not embedded: the guard of `Int.Add` inside
`Coin.Add`, and the refusal of an unsorted operand (`Coins (self) must be sorted`) with which
later lines of the sdk start `safeAdd`. -/
def safeAddLoop : Nat → Coins → Coins → Coins → Coins
  | 0, sum, _, _ => sum
  | _ + 1, sum, [], [] => sum
  | _ + 1, sum, [], coinB :: restB => sum ++ removeZeroCoins (coinB :: restB)
  | _ + 1, sum, coinA :: restA, [] => sum ++ removeZeroCoins (coinA :: restA)
  | fuel + 1, sum, coinA :: restA, coinB :: restB =>
    if denomLess coinA.Denom coinB.Denom then
      safeAddLoop fuel (if coinA.IsZero then sum else sum ++ [coinA]) restA (coinB :: restB)
    else if coinA.Denom = coinB.Denom then
      safeAddLoop fuel (if (coinA.Add coinB).IsZero then sum else sum ++ [coinA.Add coinB])
        restA restB
    else
      safeAddLoop fuel (if coinB.IsZero then sum else sum ++ [coinB]) (coinA :: restA) restB

/-- The method `Coins.Add(coinsB...)`, which is `coins.safeAdd(coinsB)`. -/
def coinsAdd (coins coinsB : Coins) : Coins :=
  safeAddLoop (coins.length + coinsB.length + 1) [] coins coinsB

/-- The recursion of `Coins.AmountOf`: a binary search for the denomination in a
denomination-ordered list.  The fuel bounds the depth. -/
def amountOfLoop : Nat → Coins → String → Int
  | 0, _, _ => 0
  | _ + 1, [], _ => 0
  | _ + 1, [coin], denom => if coin.Denom = denom then coin.Amount else 0
  | fuel + 1, coins, denom =>
    let midIdx := coins.length / 2
    match coins.get? midIdx with
    | none => 0
    | some coin =>
      if denomLess denom coin.Denom then amountOfLoop fuel (coins.take midIdx) denom
      else if denom = coin.Denom then coin.Amount
      else amountOfLoop fuel (coins.drop (midIdx + 1)) denom

/-- The method `Coins.AmountOf(denom)`. -/
def amountOf (coins : Coins) (denom : String) : Int :=
  amountOfLoop (coins.length + 1) coins denom

/-- The record `banktypes.Balance`. -/
structure Balance where
  Address : String
  Coins : Coins
deriving DecidableEq, Repr

/-- The fields of `banktypes.GenesisState` that the commands read or write. -/
structure BankGenesis where
  Balances : List Balance
  Supply : Coins
deriving DecidableEq, Repr

/-- The funding `sdk.NewCoins(sdk.NewInt64Coin("ubtsg", 1000_000_000))`: one positive coin,
which `NewCoins` keeps as it is. -/
def bankCoins : Coins := [{ Denom := "ubtsg", Amount := 1000000000 }]

/-! ## export-upgraded-genesis, `cmd/genutils` -/

namespace Genutils

/-- The bank step: `bankGenesis.Supply = bankGenesis.Supply.Add(bankCoins...)` and the balance
of `newValOwner` appended to `bankGenesis.Balances`. -/
def bankStep (bankGenesis : BankGenesis) (newValOwner : String) : BankGenesis :=
  { Supply := coinsAdd bankGenesis.Supply bankCoins,
    Balances := bankGenesis.Balances ++ [{ Address := newValOwner, Coins := bankCoins }] }

/-- The scan of the balances for the two staking pools: `bondedCoins` and `notBondedCoins`
start nil and take the coins of every balance whose address is the pool's (the last one
stays).  The two module addresses are arguments. -/
def poolCoins (bondedPoolAddr notBondedPoolAddr : String) (balances : List Balance) :
    Coins × Coins :=
  balances.foldl
    (fun pools balance =>
      let bonded := if balance.Address = bondedPoolAddr then balance.Coins else pools.1
      let notBonded := if balance.Address = notBondedPoolAddr then balance.Coins else pools.2
      (bonded, notBonded))
    ([], [])

/-- The commission `types.NewCommission(NewDecWithPrec(1, 2), NewDecWithPrec(10, 2),
NewDecWithPrec(1, 2))` of both synthesized validators. -/
def commission : Commission :=
  { Rate := Sdk.NewDecWithPrec 1 2, MaxRate := Sdk.NewDecWithPrec 10 2,
    MaxChangeRate := Sdk.NewDecWithPrec 1 2 }

/-- The staking step: `Exported` is cleared, the validators are replaced by the bonded validator
of `newValOperator` and the unbonded validator of the generated operator `valOper2`, the
delegations by one delegation, the unbonding delegations by none.  `pkAny` and `pk2Any` are the
two packed keys. -/
def stakingStep (_stakingGenesis : StakingGenesis) (bondedCoins notBondedCoins : Coins)
    (newValOwner newValOperator valOper2 : String) (pkAny pk2Any : Option String) :
    StakingGenesis :=
  { Exported := false,
    Validators :=
      [{ OperatorAddress := newValOperator,
         ConsensusPubkey := pkAny,
         Jailed := false,
         Status := BondStatus.Bonded,
         Tokens := amountOf bondedCoins "ubtsg",
         DelegatorShares := Sdk.ToDec (amountOf bondedCoins "ubtsg"),
         Moniker := "moniker1",
         UnbondingHeight := 0,
         Commission := commission,
         MinSelfDelegation := 1 },
       { OperatorAddress := valOper2,
         ConsensusPubkey := pk2Any,
         Jailed := false,
         Status := BondStatus.Unbonded,
         Tokens := amountOf notBondedCoins "ubtsg",
         DelegatorShares := Sdk.ToDec (amountOf notBondedCoins "ubtsg"),
         Moniker := "moniker2",
         UnbondingHeight := 0,
         Commission := commission,
         MinSelfDelegation := 1 }],
    Delegations :=
      [{ DelegatorAddress := newValOwner,
         ValidatorAddress := newValOperator,
         Shares := Sdk.NewDec 100000000 }],
    UnbondingDelegations := [] }

/-- The bank and staking states that `ExportUpgradedGenesisCmd` stores in `genState`: the bank
step, the pool scan over the balances after the bank step, and the staking step.  Both packed
keys come from the supplied public key `pubKey`. -/
def exportUpgradedGenesis (bankGenesis : BankGenesis) (stakingGenesis : StakingGenesis)
    (newValOwner newValOperator pubKey valOper2 bondedPoolAddr notBondedPoolAddr : String) :
    BankGenesis × StakingGenesis :=
  let bank := bankStep bankGenesis newValOwner
  let pools := poolCoins bondedPoolAddr notBondedPoolAddr bank.Balances
  (bank,
    stakingStep stakingGenesis pools.1 pools.2 newValOwner newValOperator valOper2
      (some pubKey) (some pubKey))

end Genutils

/-! ## export-upgraded-genesis, `cmd/bitsongd` -/

namespace Bitsongd

/-- The bank step: the balance of `newValOwner` is appended to `bankGenesis.Balances`; the
supply is not touched. -/
def bankStep (bankGenesis : BankGenesis) (newValOwner : String) : BankGenesis :=
  { bankGenesis with
    Balances :=
      bankGenesis.Balances ++
        [{ Address := newValOwner, Coins := [{ Denom := "ubtsg", Amount := 1000000000 }] }] }

end Bitsongd

/-! ## export-upgraded-genesis, `cmd/genutils`: auth, distribution and the written file -/

/-- A genesis account by the fields of its base account (`authtypes.BaseAccount`); the key is
kept as text, `none` for a nil key. -/
structure BaseAccount where
  Address : String
  PubKey : Option String
  AccountNumber : Nat
  Sequence : Nat
deriving DecidableEq, Repr

/-- The constructor `authtypes.NewBaseAccount(address, pubKey, accountNumber, sequence)`. -/
def NewBaseAccount (address : String) (pubKey : Option String) (accountNumber sequence : Nat) :
    BaseAccount :=
  { Address := address, PubKey := pubKey, AccountNumber := accountNumber, Sequence := sequence }

/-- The comparison of `SanitizeGenesisAccounts`:
`genAccs[i].GetAccountNumber() < genAccs[j].GetAccountNumber()`. -/
def accountNumberLess (a b : BaseAccount) : Bool := decide (a.AccountNumber < b.AccountNumber)

/-- The function `authtypes.SanitizeGenesisAccounts`: `sort.Slice` by account number, by its
contract (the accounts ordered by the comparison; Go leaves the order of accounts with equal
numbers open, here it is that of the insertion sort). -/
def SanitizeGenesisAccounts (genAccs : List BaseAccount) : List BaseAccount :=
  sliceStable accountNumberLess genAccs

/-- The record `distrtypes.DelegatorStartingInfo`. -/
structure DelegatorStartingInfo where
  Height : Nat
  PreviousPeriod : Nat
  Stake : Sdk.Dec
deriving DecidableEq, Repr

/-- The record `distrtypes.DelegatorStartingInfoRecord`. -/
structure DelegatorStartingInfoRecord where
  DelegatorAddress : String
  ValidatorAddress : String
  StartingInfo : DelegatorStartingInfo
deriving DecidableEq, Repr

/-- The fields of `distrtypes.GenesisState` that the command writes; the records of the
collections it clears are reduced to the address they are kept under. -/
structure DistrGenesis where
  DelegatorStartingInfos : List DelegatorStartingInfoRecord
  DelegatorWithdrawInfos : List String
  OutstandingRewards : List String
  PreviousProposer : String
  ValidatorAccumulatedCommissions : List String
  ValidatorCurrentRewards : List String
  ValidatorHistoricalRewards : List String
  ValidatorSlashEvents : List String
deriving DecidableEq, Repr

/-- The address functions of the cosmos-sdk that the command calls, as arguments:
`sdk.AccAddressFromBech32` (the text of the decoded account address, `none` for an error),
`sdk.ConsAddress(pubKey.Address()).String()` of a public key, and for a generated key `k` the
operator address `sdk.ValAddress(k.Address()).String()` and the account address
`sdk.AccAddress(valOper2).String()` of the same bytes. -/
structure Addresses where
  AccAddressFromBech32 : String → Option String
  consAddress : String → String
  valAddress : String → String
  accAddress : String → String

namespace Genutils

/-- The auth step: the accounts are sanitized, `newValOwner` is decoded (on an error the
command returns it: `none`) and `authtypes.NewBaseAccount(accValOwner, nil, 0, 0)` is appended
to the accounts. -/
def authStep (addresses : Addresses) (accounts : List BaseAccount) (newValOwner : String) :
    Option (List BaseAccount) :=
  let accounts := SanitizeGenesisAccounts accounts
  match addresses.AccAddressFromBech32 newValOwner with
  | none => none
  | some accValOwner => some (accounts ++ [NewBaseAccount accValOwner none 0 0])

/-- The distribution step: the starting infos are replaced by one record for the owner at the
bonded validator and one for the account of the generated operator at the unbonded validator,
the previous proposer is set, the other collections are emptied. -/
def distributionStep (_distrGenesis : DistrGenesis) (bondedCoins notBondedCoins : Coins)
    (newValOwner newValOperator valOper2 valOper2Acc previousProposer : String) :
    DistrGenesis :=
  { DelegatorStartingInfos :=
      [{ DelegatorAddress := newValOwner,
         ValidatorAddress := newValOperator,
         StartingInfo :=
           { Height := 0, PreviousPeriod := 1,
             Stake := Sdk.ToDec (amountOf bondedCoins "ubtsg") } },
       { DelegatorAddress := valOper2Acc,
         ValidatorAddress := valOper2,
         StartingInfo :=
           { Height := 0, PreviousPeriod := 1,
             Stake := Sdk.ToDec (amountOf notBondedCoins "ubtsg") } }],
    DelegatorWithdrawInfos := [],
    OutstandingRewards := [],
    PreviousProposer := previousProposer,
    ValidatorAccumulatedCommissions := [],
    ValidatorCurrentRewards := [],
    ValidatorHistoricalRewards := [],
    ValidatorSlashEvents := [] }

/-- The four module states that the command stores in `genState`. -/
structure GenState where
  auth : List BaseAccount
  bank : BankGenesis
  staking : StakingGenesis
  distribution : DistrGenesis
deriving DecidableEq, Repr

/-- The module states of `ExportUpgradedGenesisCmd` in the order the command computes them:
auth step, bank step, pool scan, staking step with both keys packed from the supplied `pubKey`,
distribution step.  `valPriv2` is the generated key; `none` when the command returns the error
of the owner address. -/
def upgradedGenState (addresses : Addresses) (accounts : List BaseAccount)
    (bankGenesis : BankGenesis) (stakingGenesis : StakingGenesis) (distrGenesis : DistrGenesis)
    (newValOwner newValOperator pubKey valPriv2 bondedPoolAddr notBondedPoolAddr : String) :
    Option GenState :=
  match authStep addresses accounts newValOwner with
  | none => none
  | some auth =>
    let bank := bankStep bankGenesis newValOwner
    let pools := poolCoins bondedPoolAddr notBondedPoolAddr bank.Balances
    let valOper2 := addresses.valAddress valPriv2
    some
      { auth := auth,
        bank := bank,
        staking :=
          stakingStep stakingGenesis pools.1 pools.2 newValOwner newValOperator valOper2
            (some pubKey) (some pubKey),
        distribution :=
          distributionStep distrGenesis pools.1 pools.2 newValOwner newValOperator valOper2
            (addresses.accAddress valPriv2) (addresses.consAddress pubKey) }

/-- The results of the operations of `writeGenStateToPath` on its surroundings, an error as its
text: `os.Create`, `json.MarshalIndent`, `tmjson.Marshal` and `ioutil.WriteFile`. -/
structure WriteResults where
  create : Option String
  marshalIndent : Option String
  marshal : Option String
  writeFile : Option String
deriving DecidableEq, Repr

/-- The function `writeGenStateToPath`, by the error it returns (`none` for nil): the errors of
`os.Create`, `json.MarshalIndent` and `tmjson.Marshal` are returned, the first one wrapped; the
result of `ioutil.WriteFile` is not looked at and nil is returned. -/
def writeGenStateToPath (results : WriteResults) : Option String :=
  match results.create with
  | some err => some ("failed to open file: " ++ err)
  | none =>
    match results.marshalIndent with
    | some err => some err
    | none =>
      match results.marshal with
      | some err => some err
      | none => none

/-- The results of the fallible calls of the command body, an error as its text:
`getGenStateFromPath`, `sdk.AccAddressFromBech32`, `authtypes.PackAccounts`, and the operations
inside `writeGenStateToPath`. -/
structure RunResults where
  load : Option String
  owner : Option String
  pack : Option String
  write : WriteResults
deriving DecidableEq, Repr

/-- The error that `RunE` of `ExportUpgradedGenesisCmd` returns (`none` for nil).  The three
early errors are returned.  After them `err` is nil (its last assignment is the successful
`codectypes.NewAnyWithValue(pubKey)`); the call `writeGenStateToPath(doc, newGenesisOutput,
genState)` is a statement whose result is dropped, and the command ends with `return err`. -/
def runE (results : RunResults) : Option String :=
  match results.load with
  | some err => some err
  | none =>
    match results.owner with
    | some err => some err
    | none =>
      match results.pack with
      | some err => some err
      | none =>
        let err : Option String := none
        let _dropped := writeGenStateToPath results.write
        err

end Genutils

/-! ## Notions of the specification -/

namespace Spec

/-- The nearest integer to `n / d` for a positive `d`, a half going to the even neighbour. -/
def roundHalfEven (n d : Int) : Int :=
  let q := n / d
  let r := n % d
  if 2 * r < d then q
  else if d < 2 * r then q + 1
  else if q % 2 = 0 then q
  else q + 1

/-- The nearest integer to `n / d` for a non-zero `d`, a half going up: `⌊n / d + 1/2⌋`. -/
def roundHalfUp (n d : Int) : Int :=
  if 0 < d then (2 * n + d) / (2 * d) else (2 * (-n) + (-d)) / (2 * (-d))

/-- The validator that an operator address denotes in a list of validators: the last one that
carries the address. -/
def validatorOf : List Validator → String → Option Validator
  | [], _ => none
  | v :: rest, a =>
    match validatorOf rest a with
    | some w => some w
    | none => if v.OperatorAddress = a then some v else none

/-- The token amount of one delegation as the specification words it:
`shares * validator.tokens / validator.shares`, rounded to the nearest integer with halves
rounded up. -/
def tokensHalfUp (vals : List Validator) (d : Delegation) : Int :=
  match validatorOf vals d.ValidatorAddress with
  | some val => roundHalfUp (d.Shares.i * val.Tokens) val.DelegatorShares.i
  | none => 0

/-- The token amount of one delegation in two roundings: the quotient
`shares * validator.tokens / validator.shares` is cut after 36 decimals, rounded to 18 decimals
and then rounded to an integer, both times to the nearest value with a half going to the even
neighbour. -/
def tokensTwiceRounded (vals : List Validator) (d : Delegation) : Int :=
  match validatorOf vals d.ValidatorAddress with
  | some val =>
    roundHalfEven
      (roundHalfEven (Int.tdiv (d.Shares.i * val.Tokens * 10 ^ 36) val.DelegatorShares.i)
        (10 ^ 18))
      (10 ^ 18)
  | none => 0

/-- The raw product `shares * validator.tokens` of one delegation, the result of `MulInt`. -/
def product (vals : List Validator) (d : Delegation) : Int :=
  match validatorOf vals d.ValidatorAddress with
  | some val => d.Shares.i * val.Tokens
  | none => 0

/-- The raw quotient of one delegation at 18 decimals, the result of `Quo`. -/
def quotient (vals : List Validator) (d : Delegation) : Int :=
  match validatorOf vals d.ValidatorAddress with
  | some val =>
    roundHalfEven (Int.tdiv (d.Shares.i * val.Tokens * 10 ^ 36) val.DelegatorShares.i) (10 ^ 18)
  | none => 0

/-- The sum of a per-delegation amount over the delegations of one delegator. -/
def delegatorTotal (amount : Delegation → Int) (delegations : List Delegation)
    (addr : String) : Int :=
  ((delegations.filter (fun d => d.DelegatorAddress = addr)).map amount).sum

/-- The delegator addresses of a staking state. -/
def delegators (st : StakingGenesis) : List String :=
  st.Delegations.map (fun d => d.DelegatorAddress)

/-- Every delegation references a validator that is present and has non-zero delegator
shares. -/
def ValidatorsPresent (st : StakingGenesis) : Prop :=
  ∀ d ∈ st.Delegations, ∃ val,
    validatorOf st.Validators d.ValidatorAddress = some val ∧ val.DelegatorShares.i ≠ 0

/-- No value of the delegation loop leaves the range of the sdk: the product and the quotient
of every delegation have fewer than 316 bits, and after every delegation the running total of
its delegator has fewer than 257 bits. -/
def WithinRange (st : StakingGenesis) : Prop :=
  (∀ d ∈ st.Delegations,
    (product st.Validators d).natAbs < Sdk.decBound ∧
    (quotient st.Validators d).natAbs < Sdk.decBound) ∧
  ∀ pre ∈ st.Delegations.inits, ∀ d ∈ pre,
    (delegatorTotal (tokensTwiceRounded st.Validators) pre d.DelegatorAddress).natAbs
      < Sdk.intBound

/-- The number an `sdk.Dec` stands for. -/
def decValue (d : Sdk.Dec) : ℚ := (d.i : ℚ) / 10 ^ 18

/-- The sum over all delegators of the aggregated staked amount. -/
def delegatorSide (m : GoMap DerivedAccount) : Int :=
  (m.map (fun e => e.2.Staked)).sum

/-- The sum over all indexed validators of the validator's total assigned delegation shares
converted to tokens at `tokens / shares`, as an exact number. -/
def validatorSide (st : StakingGenesis) : ℚ :=
  ((validatorIndex st.Validators).map (fun e =>
    ((st.Delegations.filter (fun d => d.ValidatorAddress = e.1)).map
        (fun d => decValue d.Shares)).sum
      * (e.2.Tokens : ℚ) / decValue e.2.DelegatorShares)).sum

/-- The amount of one denomination in a list of coins. -/
def coinsTotal (coins : Coins) (denom : String) : Int :=
  ((coins.filter (fun c => c.Denom = denom)).map (fun c => c.Amount)).sum

/-- The amount of one denomination summed over all balances. -/
def balancesTotal (balances : List Balance) (denom : String) : Int :=
  (balances.map (fun b => coinsTotal b.Coins denom)).sum

/-- The bank invariant: for every denomination the balances sum to the supply. -/
def SupplyMatches (bank : BankGenesis) : Prop :=
  ∀ denom, balancesTotal bank.Balances denom = coinsTotal bank.Supply denom

/-- The exact token amount of one delegation, `shares * validator.tokens / validator.shares`,
as a rational number. -/
def tokensExact (vals : List Validator) (d : Delegation) : ℚ :=
  match validatorOf vals d.ValidatorAddress with
  | some val => decValue d.Shares * (val.Tokens : ℚ) / decValue val.DelegatorShares
  | none => 0

/-- The record the filter keeps for one entry of the aggregated map: none below the threshold
of 400,000,000, otherwise the address, the staked amount and `0.1251 * staked / 10^6` (that is
`1251 * staked / 10^10`) rounded to the nearest integer, a half going to the even neighbour. -/
def recordOf (e : String × DerivedAccount) : Option StakedAccount :=
  if 400000000 ≤ e.2.Staked then
    some { Address := e.1, Staked := e.2.Staked,
           UsdValue := roundHalfEven (1251 * e.2.Staked) 10000000000 }
  else none

end Spec

/-! ## Sample states -/

namespace Sample

/-- A bonded validator with the given operator address, tokens and delegator shares. -/
def validator (operator : String) (tokens : Int) (shares : Sdk.Dec) : Validator :=
  { OperatorAddress := operator, ConsensusPubkey := none, Jailed := false,
    Status := BondStatus.Bonded, Tokens := tokens, DelegatorShares := shares, Moniker := "",
    UnbondingHeight := 0, Commission := ⟨⟨0⟩, ⟨0⟩, ⟨0⟩⟩, MinSelfDelegation := 1 }

/-- A staking state with the given validators and delegations. -/
def staking (vals : List Validator) (ds : List Delegation) : StakingGenesis :=
  { Validators := vals, Delegations := ds, UnbondingDelegations := [], Exported := true }

/-- The scenario of the specification: one validator with tokens = shares = 1,000,000 and one
delegation of 500,000 shares by delegator `A`. -/
def scenario : StakingGenesis :=
  staking [validator "V" 1000000 (Sdk.NewDec 1000000)] [⟨"A", "V", Sdk.NewDec 500000⟩]

/-- One validator with 1 token for 2 shares and one delegation of 1 share by `A`: the exact
token amount of the delegation is one half. -/
def half : StakingGenesis :=
  staking [validator "V" 1 (Sdk.NewDec 2)] [⟨"A", "V", Sdk.NewDec 1⟩]

/-- An aggregated map with one account at the threshold and one just below it. -/
def threshold : GoMap DerivedAccount :=
  [("A", ⟨"A", 400000000⟩), ("B", ⟨"B", 399999999⟩)]

/-- The entries of `threshold` in the other order. -/
def thresholdVisited : GoMap DerivedAccount :=
  [("B", ⟨"B", 399999999⟩), ("A", ⟨"A", 400000000⟩)]

/-- Two delegators `A` and `B`, in this order, with 400,000,000 shares each of one validator
whose tokens equal its shares. -/
def tie : StakingGenesis :=
  staking [validator "V" 1000000000 (Sdk.NewDec 1000000000)]
    [⟨"A", "V", Sdk.NewDec 400000000⟩, ⟨"B", "V", Sdk.NewDec 400000000⟩]

/-- The aggregated map of `tie`, visited with `B` before `A`. -/
def tieVisited : GoMap DerivedAccount :=
  [("B", ⟨"B", 400000000⟩), ("A", ⟨"A", 400000000⟩)]

/-- An aggregated map with one account of 15,000,000,000 staked: its value
`0.1251 * 15000000000 / 10^6` is `1876.5`. -/
def halfValue : GoMap DerivedAccount := [("A", ⟨"A", 15000000000⟩)]

/-- Two validators with uneven rates (10 tokens for 3 shares, 7 tokens for 2 shares) and three
delegations of 1 share each. -/
def uneven : StakingGenesis :=
  staking [validator "V" 10 (Sdk.NewDec 3), validator "W" 7 (Sdk.NewDec 2)]
    [⟨"A", "V", Sdk.NewDec 1⟩, ⟨"B", "V", Sdk.NewDec 1⟩, ⟨"A", "W", Sdk.NewDec 1⟩]

/-- One delegation by `A` to the operator address `W`, which no validator carries. -/
def orphan : StakingGenesis :=
  staking [validator "V" 1000000 (Sdk.NewDec 1000000)] [⟨"A", "W", Sdk.NewDec 500000⟩]

/-- A bank state in which the bonded pool `bonded` holds 5 ubtsg, the whole supply. -/
def bank : BankGenesis :=
  { Balances := [{ Address := "bonded", Coins := [{ Denom := "ubtsg", Amount := 5 }] }],
    Supply := [{ Denom := "ubtsg", Amount := 5 }] }

/-- One validator with 5,000,000,000,000,000,001 tokens for 10^19 shares and one delegation of
1 share by `A`: the exact token amount of the delegation is `0.5000000000000000001`. -/
def nearHalf : StakingGenesis :=
  staking [validator "V" 5000000000000000001 (Sdk.NewDec 10000000000000000000)]
    [⟨"A", "V", Sdk.NewDec 1⟩]

/-- Address functions that tag the text they are given. -/
def addresses : Addresses :=
  { AccAddressFromBech32 := fun s => some s,
    consAddress := fun k => "cons:" ++ k,
    valAddress := fun k => "valoper:" ++ k,
    accAddress := fun k => "acc:" ++ k }

/-- An auth state whose one account, number 7, has the address `owner`. -/
def accounts : List BaseAccount := [⟨"owner", none, 7, 3⟩]

/-- A distribution state with one starting info and one outstanding reward. -/
def distribution : DistrGenesis :=
  { DelegatorStartingInfos := [⟨"A", "V", ⟨10, 2, Sdk.NewDec 500000⟩⟩],
    DelegatorWithdrawInfos := [],
    OutstandingRewards := ["V"],
    PreviousProposer := "",
    ValidatorAccumulatedCommissions := [],
    ValidatorCurrentRewards := [],
    ValidatorHistoricalRewards := [],
    ValidatorSlashEvents := [] }

/-- A run in which every call succeeds but `ioutil.WriteFile`. -/
def writeFails : Genutils.RunResults :=
  { load := none, owner := none, pack := none,
    write := { create := none, marshalIndent := none, marshal := none,
               writeFile := some "no space left on device" } }

/-- A run in which every call succeeds but `os.Create`. -/
def createFails : Genutils.RunResults :=
  { load := none, owner := none, pack := none,
    write := { create := some "permission denied", marshalIndent := none, marshal := none,
               writeFile := some "permission denied" } }

/-- One validator with 10^50 tokens for 10^50 shares and one delegation of 10^30 shares by `A`:
the raw product of `MulInt` is `10^98`, a number of 326 bits. -/
def overflow : StakingGenesis :=
  staking
    [validator "V" 100000000000000000000000000000000000000000000000000
      (Sdk.NewDec 100000000000000000000000000000000000000000000000000)]
    [⟨"A", "V", Sdk.NewDec 1000000000000000000000000000000⟩]

end Sample

/-! ## Rounding -/

open Spec

theorem chopPrecisionAndRound_eq (n : Int) :
    Sdk.chopPrecisionAndRound n = Spec.roundHalfEven n (10 ^ 18) := by
  unfold Sdk.chopPrecisionAndRound Sdk.chopNonneg Spec.roundHalfEven Sdk.precisionReuse
    Sdk.fivePrecision
  norm_num only
  split_ifs <;> omega

theorem chopPrecisionAndRound_mul (k : Int) :
    Sdk.chopPrecisionAndRound (k * 1000000000000000000) = k := by
  unfold Sdk.chopPrecisionAndRound Sdk.chopNonneg Sdk.precisionReuse Sdk.fivePrecision
  simp only []
  split_ifs <;> omega

theorem chopPrecisionAndRound_err (n : Int) :
    |Sdk.chopPrecisionAndRound n * 1000000000000000000 - n| ≤ 500000000000000000 := by
  rw [abs_le]
  unfold Sdk.chopPrecisionAndRound Sdk.chopNonneg Sdk.precisionReuse Sdk.fivePrecision
  simp only []
  split_ifs <;> constructor <;> omega

theorem roundHalfEven_mul_right (n d c : Int) (hc : 0 < c) :
    Spec.roundHalfEven (n * c) (d * c) = Spec.roundHalfEven n d := by
  unfold Spec.roundHalfEven
  have h1 : n * c / (d * c) = n / d := Int.mul_ediv_mul_of_pos_left n d hc
  have h2 : n * c % (d * c) = n % d * c := by
    rw [mul_comm n c, mul_comm d c, Int.mul_emod_mul_of_pos _ _ hc, mul_comm]
  have e1 : (2 * (n % d * c) < d * c) ↔ (2 * (n % d) < d) := by
    rw [← mul_assoc]; exact mul_lt_mul_right hc
  have e2 : (d * c < 2 * (n % d * c)) ↔ (d < 2 * (n % d)) := by
    rw [← mul_assoc]; exact mul_lt_mul_right hc
  simp only [h1, h2, e1, e2]

theorem natAbs_tmod_eq (a b : Int) : (Int.tmod a b).natAbs = a.natAbs % b.natAbs := by
  cases a <;> cases b <;> simp [Int.tmod, Int.natAbs_neg] <;> rfl

theorem tdiv_err (a b : Int) (hb : b ≠ 0) : |Int.tdiv a b * b - a| < |b| := by
  have h := Int.tdiv_add_tmod a b
  have h2 : Int.tdiv a b * b - a = - Int.tmod a b := by linarith
  rw [h2, abs_neg, Int.abs_eq_natAbs, Int.abs_eq_natAbs, natAbs_tmod_eq]
  exact_mod_cast Nat.mod_lt _ (Int.natAbs_pos.mpr hb)

/-! ## Maps -/

theorem mapGet_mapSet {V : Type} (m : GoMap V) (k : String) (v : V) (k' : String) :
    mapGet (mapSet m k v) k' = if k = k' then some v else mapGet m k' := by
  induction m with
  | nil => simp [mapSet, mapGet]
  | cons e rest ih =>
    obtain ⟨k0, v0⟩ := e
    by_cases h0 : k0 = k
    · subst h0
      by_cases h1 : k0 = k' <;> simp [mapSet, mapGet, h1]
    · by_cases h1 : k0 = k'
      · subst h1
        have h2 : ¬ k = k0 := fun h => h0 h.symm
        simp [mapSet, mapGet, h0, h2]
      · simp [mapSet, mapGet, h0, h1, ih]

theorem mapKeys_mapSet {V : Type} (m : GoMap V) (k : String) (v : V) :
    mapKeys (mapSet m k v) = if k ∈ mapKeys m then mapKeys m else mapKeys m ++ [k] := by
  induction m with
  | nil => simp [mapSet, mapKeys]
  | cons e rest ih =>
    obtain ⟨k0, v0⟩ := e
    by_cases h0 : k0 = k
    · subst h0
      simp [mapSet, mapKeys]
    · have h2 : ¬ k = k0 := fun h => h0 h.symm
      unfold mapKeys at ih
      by_cases h3 : k ∈ List.map Prod.fst rest
      · simp [mapSet, mapKeys, h0, h2, h3, ih]
      · simp [mapSet, mapKeys, h0, h2, h3, ih]

theorem nodup_mapKeys_mapSet {V : Type} (m : GoMap V) (k : String) (v : V)
    (h : (mapKeys m).Nodup) : (mapKeys (mapSet m k v)).Nodup := by
  rw [mapKeys_mapSet]
  split_ifs with hk
  · exact h
  · exact List.Nodup.append h (List.nodup_singleton k) (by simpa using hk)

theorem mem_mapKeys_iff {V : Type} (m : GoMap V) (k : String) :
    k ∈ mapKeys m ↔ ∃ v, mapGet m k = some v := by
  induction m with
  | nil => simp [mapKeys, mapGet]
  | cons e rest ih =>
    obtain ⟨k0, v0⟩ := e
    unfold mapKeys at ih
    by_cases h0 : k0 = k
    · subst h0
      simp [mapKeys, mapGet]
    · have h2 : ¬ k = k0 := fun h => h0 h.symm
      simp [mapKeys, mapGet, h0, h2, ih]

theorem mapGet_foldl_validators (vals : List Validator) (m : GoMap Validator) (a : String) :
    mapGet (vals.foldl (fun m validator => mapSet m validator.OperatorAddress validator) m) a
      = match Spec.validatorOf vals a with
        | some w => some w
        | none => mapGet m a := by
  induction vals generalizing m with
  | nil => simp [Spec.validatorOf]
  | cons v rest ih =>
    simp only [List.foldl_cons, Spec.validatorOf]
    rw [ih, mapGet_mapSet]
    cases Spec.validatorOf rest a with
    | some w => rfl
    | none => by_cases hv : v.OperatorAddress = a <;> simp [hv]

theorem mapGet_validatorIndex (vals : List Validator) (a : String) :
    mapGet (validatorIndex vals) a = Spec.validatorOf vals a := by
  unfold validatorIndex
  rw [mapGet_foldl_validators]
  cases Spec.validatorOf vals a <;> simp [mapGet]

theorem nodup_validatorIndex (vals : List Validator) :
    (mapKeys (validatorIndex vals)).Nodup := by
  unfold validatorIndex
  have key : ∀ (l : List Validator) (m : GoMap Validator), (mapKeys m).Nodup →
      (mapKeys (l.foldl (fun m validator => mapSet m validator.OperatorAddress validator)
        m)).Nodup := by
    intro l
    induction l with
    | nil => intro m hm; simpa using hm
    | cons v rest ih =>
      intro m hm
      simp only [List.foldl_cons]
      exact ih _ (nodup_mapKeys_mapSet m _ _ hm)
  exact key vals [] (by simp [mapKeys])

/-! ## The delegation loop -/

theorem checkDec_of_lt (d : Sdk.Dec) (h : d.i.natAbs < Sdk.decBound) :
    Sdk.checkDec d = some d := by
  simp [Sdk.checkDec, Nat.not_le.mpr h]

theorem checkInt_of_lt (n : Int) (h : n.natAbs < Sdk.intBound) : Sdk.checkInt n = some n := by
  simp [Sdk.checkInt, Nat.not_le.mpr h]

theorem bounds_eq : Sdk.intBound = 2 ^ 256 ∧ Sdk.decBound = 2 ^ 315 := by
  constructor <;> norm_num [Sdk.intBound, Sdk.decBound]

theorem chopPrecisionAndRound_natAbs_lt (q : Int) (h : q.natAbs < Sdk.decBound) :
    (Sdk.chopPrecisionAndRound q).natAbs < Sdk.intBound := by
  have e := chopPrecisionAndRound_err q
  rw [abs_le] at e
  unfold Sdk.decBound at h
  unfold Sdk.intBound
  omega

theorem stakedTokens_eq (vals : List Validator) (d : Delegation) (val : Validator)
    (hv : validatorOf vals d.ValidatorAddress = some val) (h0 : val.DelegatorShares.i ≠ 0)
    (hp : (product vals d).natAbs < Sdk.decBound)
    (hq : (quotient vals d).natAbs < Sdk.decBound) :
    stakedTokens d val = some (tokensTwiceRounded vals d) := by
  have e : d.Shares.i * val.Tokens * Sdk.precisionReuse * Sdk.precisionReuse
      = d.Shares.i * val.Tokens * 10 ^ 36 := by
    unfold Sdk.precisionReuse; ring
  simp only [product, hv] at hp
  simp only [quotient, hv, ← chopPrecisionAndRound_eq] at hq
  have h1 : Sdk.checkDec (d.Shares.MulInt val.Tokens) = some ⟨d.Shares.i * val.Tokens⟩ :=
    checkDec_of_lt _ hp
  have h2 : Sdk.Dec.Quo ⟨d.Shares.i * val.Tokens⟩ val.DelegatorShares
      = some ⟨Sdk.chopPrecisionAndRound
          (Int.tdiv (d.Shares.i * val.Tokens * 10 ^ 36) val.DelegatorShares.i)⟩ := by
    simp only [Sdk.Dec.Quo, h0, if_false, e]
  have h3 := checkDec_of_lt
    ⟨Sdk.chopPrecisionAndRound
      (Int.tdiv (d.Shares.i * val.Tokens * 10 ^ 36) val.DelegatorShares.i)⟩ hq
  have h4 := checkInt_of_lt _ (chopPrecisionAndRound_natAbs_lt _ hq)
  simp only [stakedTokens, h1, h2, h3, Sdk.Dec.RoundInt, h4]
  simp only [tokensTwiceRounded, hv, chopPrecisionAndRound_eq]

theorem delegationStep_eq (vals : List Validator) (m : GoMap DerivedAccount) (d : Delegation)
    (val : Validator) (hv : validatorOf vals d.ValidatorAddress = some val)
    (h0 : val.DelegatorShares.i ≠ 0)
    (hp : (product vals d).natAbs < Sdk.decBound)
    (hq : (quotient vals d).natAbs < Sdk.decBound)
    (ht : ((accountOf m d.DelegatorAddress).Staked + tokensTwiceRounded vals d).natAbs
      < Sdk.intBound) :
    delegationStep (validatorIndex vals) m d
      = some (mapSet m d.DelegatorAddress
          ⟨(accountOf m d.DelegatorAddress).Address,
            (accountOf m d.DelegatorAddress).Staked + tokensTwiceRounded vals d⟩) := by
  simp only [delegationStep, mapGet_validatorIndex, hv, stakedTokens_eq vals d val hv h0 hp hq,
    checkInt_of_lt _ ht]

theorem accountOf_mapSet (m : GoMap DerivedAccount) (k : String) (acc : DerivedAccount)
    (a : String) :
    accountOf (mapSet m k acc) a = if k = a then acc else accountOf m a := by
  unfold accountOf
  rw [mapGet_mapSet]
  by_cases h : k = a <;> simp [h]

theorem delegatorSide_mapSet (m : GoMap DerivedAccount) (k : String) (s : Int) :
    delegatorSide (mapSet m k ⟨(accountOf m k).Address, (accountOf m k).Staked + s⟩)
      = delegatorSide m + s := by
  induction m with
  | nil => simp [mapSet, mapGet, accountOf, delegatorSide, newDerivedAccount]
  | cons e rest ih =>
    obtain ⟨k0, v0⟩ := e
    by_cases h0 : k0 = k
    · subst h0
      simp [mapSet, mapGet, accountOf, delegatorSide]
      ring
    · have e1 : accountOf ((k0, v0) :: rest) k = accountOf rest k := by
        simp [accountOf, mapGet, h0]
      rw [e1]
      simp only [mapSet, h0, if_false]
      unfold delegatorSide at ih ⊢
      simp only [List.map_cons, List.sum_cons, ih]
      ring

theorem delegatorTotal_cons (amount : Delegation → Int) (d : Delegation) (ds : List Delegation)
    (a : String) :
    delegatorTotal amount (d :: ds) a
      = (if d.DelegatorAddress = a then amount d else 0) + delegatorTotal amount ds a := by
  unfold delegatorTotal
  by_cases h : d.DelegatorAddress = a <;> simp [List.filter_cons, h]

theorem delegationLoop_spec (vals : List Validator) (ds : List Delegation) :
    ∀ m : GoMap DerivedAccount,
    (∀ d ∈ ds, ∃ val, validatorOf vals d.ValidatorAddress = some val ∧
      val.DelegatorShares.i ≠ 0) →
    (∀ d ∈ ds, (product vals d).natAbs < Sdk.decBound ∧
      (quotient vals d).natAbs < Sdk.decBound) →
    (∀ pre, pre <+: ds → ∀ d ∈ pre,
      ((accountOf m d.DelegatorAddress).Staked
        + delegatorTotal (tokensTwiceRounded vals) pre d.DelegatorAddress).natAbs
        < Sdk.intBound) →
    ∃ m', delegationLoop (validatorIndex vals) m ds = some m' ∧
      ((mapKeys m).Nodup → (mapKeys m').Nodup) ∧
      (∀ a, mapGet m' a =
        match mapGet m a with
        | some acc =>
          some ⟨acc.Address, acc.Staked + delegatorTotal (tokensTwiceRounded vals) ds a⟩
        | none =>
          if a ∈ ds.map (fun d => d.DelegatorAddress) then
            some ⟨a, delegatorTotal (tokensTwiceRounded vals) ds a⟩
          else none) ∧
      delegatorSide m' = delegatorSide m + (ds.map (tokensTwiceRounded vals)).sum := by
  induction ds with
  | nil =>
    intro m _ _ _
    refine ⟨m, rfl, id, ?_, by simp⟩
    intro a
    cases h : mapGet m a <;> simp [delegatorTotal]
  | cons d rest ih =>
    intro m hok hr ht
    obtain ⟨val, hv, h0⟩ := hok d (List.mem_cons_self _ _)
    obtain ⟨hp, hq⟩ := hr d (List.mem_cons_self _ _)
    have ht0 : ((accountOf m d.DelegatorAddress).Staked + tokensTwiceRounded vals d).natAbs
        < Sdk.intBound := by
      have := ht [d] (by simp) d (List.mem_singleton.mpr rfl)
      simpa [delegatorTotal] using this
    have hstep := delegationStep_eq vals m d val hv h0 hp hq ht0
    obtain ⟨m', hloop, hnd, hget, hsum⟩ :=
      ih (mapSet m d.DelegatorAddress
          ⟨(accountOf m d.DelegatorAddress).Address,
            (accountOf m d.DelegatorAddress).Staked + tokensTwiceRounded vals d⟩)
        (fun d' hd' => hok d' (List.mem_cons_of_mem _ hd'))
        (fun d' hd' => hr d' (List.mem_cons_of_mem _ hd'))
        (by
          intro pre hpre d' hd'
          have := ht (d :: pre) ((List.cons_prefix_cons).mpr ⟨rfl, hpre⟩) d'
            (List.mem_cons_of_mem _ hd')
          rw [delegatorTotal_cons] at this
          rw [accountOf_mapSet]
          by_cases hda : d.DelegatorAddress = d'.DelegatorAddress
          · rw [if_pos hda] at this ⊢
            rw [← hda] at this ⊢
            simpa [add_assoc] using this
          · rw [if_neg hda] at this ⊢
            simpa using this)
    refine ⟨m', ?_, ?_, ?_, ?_⟩
    · simp only [delegationLoop, hstep, hloop]
    · intro hm
      exact hnd (nodup_mapKeys_mapSet m _ _ hm)
    · intro a
      rw [hget a, mapGet_mapSet, delegatorTotal_cons]
      by_cases hda : d.DelegatorAddress = a
      · subst hda
        cases hm : mapGet m d.DelegatorAddress with
        | some acc => simp [accountOf, hm, add_assoc]
        | none => simp [accountOf, hm, newDerivedAccount]
      · have hda' : ¬ a = d.DelegatorAddress := fun h => hda h.symm
        cases hm : mapGet m a with
        | some acc => simp [hda]
        | none => simp [hda, hda']
    · rw [hsum, delegatorSide_mapSet]
      simp [add_assoc]

theorem aggregate_spec (st : StakingGenesis) (h : ValidatorsPresent st)
    (hr : WithinRange st) :
    ∃ m, aggregate st = some m ∧ (mapKeys m).Nodup ∧
      (∀ a, mapGet m a =
        if a ∈ delegators st then
          some ⟨a, delegatorTotal (tokensTwiceRounded st.Validators) st.Delegations a⟩
        else none) ∧
      delegatorSide m = (st.Delegations.map (tokensTwiceRounded st.Validators)).sum := by
  obtain ⟨m, hloop, hnd, hget, hsum⟩ :=
    delegationLoop_spec st.Validators st.Delegations [] h hr.1
      (by
        intro pre hpre d hd
        have := hr.2 pre ((List.mem_inits _ _).mpr hpre) d hd
        simpa [accountOf, mapGet, newDerivedAccount] using this)
  refine ⟨m, hloop, hnd (by simp [mapKeys]), ?_, ?_⟩
  · intro a
    rw [hget a]
    rfl
  · rw [hsum]
    simp [delegatorSide]

theorem withinRange_scenario : WithinRange Sample.scenario := by
  unfold WithinRange
  decide

theorem withinRange_uneven : WithinRange Sample.uneven := by
  unfold WithinRange
  decide

theorem validatorsPresent_overflow : ValidatorsPresent Sample.overflow := by
  intro d hd
  simp only [Sample.overflow, Sample.staking, List.mem_singleton] at hd
  subst hd
  exact ⟨_, rfl, by decide⟩

/-- At a product of 326 bits the guard of `MulInt` panics. -/
theorem aggregate_overflow : aggregate Sample.overflow = none := by
  decide

theorem validatorsPresent_scenario : Spec.ValidatorsPresent Sample.scenario := by
  intro d hd
  simp only [Sample.scenario, Sample.staking, List.mem_singleton] at hd
  subst hd
  exact ⟨_, rfl, by decide⟩

theorem validatorsPresent_half : Spec.ValidatorsPresent Sample.half := by
  intro d hd
  simp only [Sample.half, Sample.staking, List.mem_singleton] at hd
  subst hd
  exact ⟨_, rfl, by decide⟩

theorem aggregate_scenario : aggregate Sample.scenario = some [("A", ⟨"A", 500000⟩)] := by
  decide

/-! ## C1: the aggregated mapping -/

/-- C1 (as amended): when every delegation references a validator that is present with non-zero
delegator shares, and no product, quotient or running total of the loop leaves the range of the
sdk, the delegation loop returns a mapping whose keys are exactly the delegator addresses, each
once, and whose value for a delegator is the sum over that delegator's delegations of
`shares * validator.tokens / validator.shares` rounded first to 18 decimals and then to an
integer, a half going to the even neighbour each time. -/
theorem aggregate_delegator_totals (st : StakingGenesis) (h : ValidatorsPresent st)
    (hr : WithinRange st) :
    ∃ m, aggregate st = some m ∧ (mapKeys m).Nodup ∧
      (∀ a, a ∈ mapKeys m ↔ a ∈ delegators st) ∧
      ∀ a ∈ delegators st,
        mapGet m a
          = some ⟨a, delegatorTotal (tokensTwiceRounded st.Validators) st.Delegations a⟩ := by
  obtain ⟨m, hloop, hnd, hget, _⟩ := aggregate_spec st h hr
  refine ⟨m, hloop, hnd, ?_, ?_⟩
  · intro a
    rw [mem_mapKeys_iff, hget a]
    by_cases ha : a ∈ delegators st <;> simp [ha]
  · intro a ha
    rw [hget a, if_pos ha]

/-- C1, at the scenario of the specification: one validator with tokens = shares = 1,000,000
and one delegation of 500,000 shares by delegator `A` give `A` a staked amount of 500,000. -/
theorem aggregate_delegator_totals_witness :
    Spec.ValidatorsPresent Sample.scenario ∧ Spec.WithinRange Sample.scenario ∧
      (∃ m, aggregate Sample.scenario = some m ∧ (mapKeys m).Nodup ∧
        (∀ a, a ∈ mapKeys m ↔ a ∈ Spec.delegators Sample.scenario) ∧
        ∀ a ∈ Spec.delegators Sample.scenario,
          mapGet m a
            = some ⟨a, Spec.delegatorTotal (Spec.tokensTwiceRounded Sample.scenario.Validators)
                Sample.scenario.Delegations a⟩) ∧
      aggregate Sample.scenario = some [("A", ⟨"A", 500000⟩)] :=
  ⟨validatorsPresent_scenario, withinRange_scenario,
    aggregate_delegator_totals Sample.scenario validatorsPresent_scenario withinRange_scenario,
    aggregate_scenario⟩

/-- C1 as stated fails: with one validator (1 token for 2 shares) and one delegation of 1 share
by `A` the exact amount is one half; the command reports 0 for `A`, where halves rounded up
would give 1. -/
theorem aggregate_not_half_up :
    ¬ ∀ st : StakingGenesis, Spec.ValidatorsPresent st →
      ∃ m, aggregate st = some m ∧
        ∀ a ∈ Spec.delegators st,
          mapGet m a
            = some ⟨a, Spec.delegatorTotal (Spec.tokensHalfUp st.Validators) st.Delegations a⟩ := by
  intro hall
  obtain ⟨m, hm, hval⟩ := hall Sample.half validatorsPresent_half
  have hagg : aggregate Sample.half = some [("A", ⟨"A", 0⟩)] := by decide
  rw [hagg] at hm
  have hm' : m = [("A", ⟨"A", 0⟩)] := (Option.some.inj hm).symm
  subst hm'
  have h1 := hval "A" (by decide)
  revert h1
  decide

/-- The two roundings of the command show at an exact amount of `0.5000000000000000001`: one
rounding to the nearest integer gives 1 under either convention for halves, while the quotient
at 18 decimals is `0.5` and the command reports 0. -/
theorem aggregate_rounds_twice :
    aggregate Sample.nearHalf = some [("A", ⟨"A", 0⟩)] ∧
      delegatorTotal (tokensTwiceRounded Sample.nearHalf.Validators)
        Sample.nearHalf.Delegations "A" = 0 ∧
      delegatorTotal (tokensHalfUp Sample.nearHalf.Validators)
        Sample.nearHalf.Delegations "A" = 1 ∧
      roundHalfEven ((Sdk.NewDec 1).i * 5000000000000000001)
        (Sdk.NewDec 10000000000000000000).i = 1 := by
  decide

/-! ## The filter loop -/

theorem power_ten_six : (Sdk.NewDec 10).Power 6 = ⟨1000000000000000000000000⟩ := by decide

theorem usdValue_eq (s : Int) :
    usdValue s = some (roundHalfEven (1251 * s) 10000000000) := by
  have hinfo : mapGet assetInfo "ubtsg"
      = some { denom := "btsg", decimal := 6, price := Sdk.NewDecWithPrec 1251 4 } := by decide
  have hmul : (Sdk.NewDecWithPrec 1251 4).Mul (Sdk.ToDec s) = ⟨125100000000000000 * s⟩ := by
    have e : (1251 * 10 ^ (18 - 4) : Int) * (s * 1000000000000000000)
        = (125100000000000000 * s) * 1000000000000000000 := by norm_num; ring
    simp only [Sdk.Dec.Mul, Sdk.NewDecWithPrec, Sdk.ToDec, Sdk.precisionReuse, e,
      chopPrecisionAndRound_mul]
  have hquo : Sdk.Dec.Quo ⟨125100000000000000 * s⟩ ⟨1000000000000000000000000⟩
      = some ⟨125100000000 * s⟩ := by
    have e : (125100000000000000 * s : Int) * 1000000000000000000 * 1000000000000000000
        = (125100000000 * s * 1000000000000000000) * 1000000000000000000000000 := by ring
    have hne : (1000000000000000000000000 : Int) ≠ 0 := by norm_num
    simp only [Sdk.Dec.Quo, Sdk.precisionReuse, hne, if_false, e,
      Int.mul_tdiv_cancel _ hne, chopPrecisionAndRound_mul]
  have hround : Sdk.chopPrecisionAndRound (125100000000 * s)
      = roundHalfEven (1251 * s) 10000000000 := by
    rw [chopPrecisionAndRound_eq]
    have e1 : (125100000000 * s : Int) = (1251 * s) * 100000000 := by ring
    have e2 : ((10 : Int) ^ 18) = 10000000000 * 100000000 := by norm_num
    rw [e1, e2, roundHalfEven_mul_right _ _ _ (by norm_num)]
  simp only [usdValue, hinfo, power_ten_six, hmul, hquo, Option.map_some', Sdk.Dec.RoundInt,
    hround]

/-- The range guards that `usdValue` leaves out pass for every staked amount in the range of
`sdk.Int`: the product of `Mul`, the quotient of `Quo` and the integer of `RoundInt` stay in
range, and the guarded chain gives the value of `usdValue`. -/
theorem usdValue_checks_pass (s : Int) (hs : s.natAbs < Sdk.intBound) :
    ∃ product quotient,
      Sdk.checkDec ((Sdk.NewDecWithPrec 1251 4).Mul (Sdk.ToDec s)) = some product ∧
      product.Quo ((Sdk.NewDec 10).Power 6) = some quotient ∧
      Sdk.checkDec quotient = some quotient ∧
      Sdk.checkInt quotient.RoundInt = usdValue s := by
  have hmul : (Sdk.NewDecWithPrec 1251 4).Mul (Sdk.ToDec s) = ⟨125100000000000000 * s⟩ := by
    have e : (1251 * 10 ^ (18 - 4) : Int) * (s * 1000000000000000000)
        = (125100000000000000 * s) * 1000000000000000000 := by norm_num; ring
    simp only [Sdk.Dec.Mul, Sdk.NewDecWithPrec, Sdk.ToDec, Sdk.precisionReuse, e,
      chopPrecisionAndRound_mul]
  have hquo : Sdk.Dec.Quo ⟨125100000000000000 * s⟩ ⟨1000000000000000000000000⟩
      = some ⟨125100000000 * s⟩ := by
    have e : (125100000000000000 * s : Int) * 1000000000000000000 * 1000000000000000000
        = (125100000000 * s * 1000000000000000000) * 1000000000000000000000000 := by ring
    have hne : (1000000000000000000000000 : Int) ≠ 0 := by norm_num
    simp only [Sdk.Dec.Quo, Sdk.precisionReuse, hne, if_false, e,
      Int.mul_tdiv_cancel _ hne, chopPrecisionAndRound_mul]
  have h1 : (125100000000000000 * s).natAbs < Sdk.decBound := by
    unfold Sdk.intBound at hs
    unfold Sdk.decBound
    omega
  have h2 : (125100000000 * s).natAbs < Sdk.decBound := by
    unfold Sdk.intBound at hs
    unfold Sdk.decBound
    omega
  have h3 : (Sdk.chopPrecisionAndRound (125100000000 * s)).natAbs < Sdk.intBound :=
    chopPrecisionAndRound_natAbs_lt _ h2
  refine ⟨⟨125100000000000000 * s⟩, ⟨125100000000 * s⟩, ?_, ?_, checkDec_of_lt _ h2, ?_⟩
  · rw [hmul]
    exact checkDec_of_lt _ h1
  · rw [power_ten_six]
    exact hquo
  · have hinfo : mapGet assetInfo "ubtsg"
        = some { denom := "btsg", decimal := 6, price := Sdk.NewDecWithPrec 1251 4 } := by
      decide
    simp only [usdValue, hinfo, power_ten_six, hmul, hquo, Option.map_some', Sdk.Dec.RoundInt]
    exact checkInt_of_lt _ h3

theorem filterLoop_eq (visited : List (String × DerivedAccount)) :
    ∀ stakedAccs, filterLoop stakedAccs visited
      = some (stakedAccs ++ visited.filterMap recordOf) := by
  induction visited with
  | nil => intro acc; simp [filterLoop]
  | cons e rest ih =>
    intro acc
    obtain ⟨addr, account⟩ := e
    by_cases h : 400000000 ≤ account.Staked
    · simp [filterLoop, h, usdValue_eq, ih, recordOf, List.filterMap_cons]
    · simp [filterLoop, h, ih, recordOf, List.filterMap_cons]

theorem filterStaked_eq (visited : List (String × DerivedAccount)) :
    filterStaked visited = some (visited.filterMap recordOf) := by
  simp [filterStaked, filterLoop_eq]

theorem mem_filterMap_recordOf (visited : List (String × DerivedAccount)) (r : StakedAccount) :
    r ∈ visited.filterMap recordOf ↔
      ∃ acc, (r.Address, acc) ∈ visited ∧ 400000000 ≤ acc.Staked ∧ r.Staked = acc.Staked ∧
        r.UsdValue = roundHalfEven (1251 * acc.Staked) 10000000000 := by
  rw [List.mem_filterMap]
  constructor
  · rintro ⟨⟨addr, acc⟩, hmem, hrec⟩
    unfold recordOf at hrec
    split_ifs at hrec with h
    cases hrec
    exact ⟨acc, hmem, h, rfl, rfl⟩
  · rintro ⟨acc, hmem, h, hs, hu⟩
    refine ⟨(r.Address, acc), hmem, ?_⟩
    obtain ⟨a, st, u⟩ := r
    simp only at hs hu
    simp [recordOf, h, hs, hu]

theorem addresses_filterMap_recordOf (visited : List (String × DerivedAccount)) :
    (visited.filterMap recordOf).map (fun r => r.Address)
      = (visited.filter (fun e => decide (400000000 ≤ e.2.Staked))).map Prod.fst := by
  induction visited with
  | nil => rfl
  | cons e rest ih =>
    by_cases h : 400000000 ≤ e.2.Staked
    · simp [List.filterMap_cons, List.filter_cons, recordOf, h, ih]
    · simp [List.filterMap_cons, List.filter_cons, recordOf, h, ih]

theorem mapGet_eq_some_iff {V : Type} (m : GoMap V) (h : (mapKeys m).Nodup) (k : String)
    (v : V) : mapGet m k = some v ↔ (k, v) ∈ m := by
  induction m with
  | nil => simp [mapGet]
  | cons e rest ih =>
    obtain ⟨k0, v0⟩ := e
    have hnd : (mapKeys rest).Nodup := (List.nodup_cons.mp h).2
    have hk0 : k0 ∉ mapKeys rest := (List.nodup_cons.mp h).1
    by_cases h0 : k0 = k
    · subst h0
      have : ∀ v, (k0, v) ∉ rest := fun v hv => hk0 (List.mem_map.mpr ⟨(k0, v), hv, rfl⟩)
      simp only [mapGet, if_true, Option.some.injEq, List.mem_cons, Prod.mk.injEq, true_and]
      constructor
      · intro e; exact Or.inl e.symm
      · rintro (e | e)
        · exact e.symm
        · exact absurd e (this v)
    · have h2 : ¬ k = k0 := fun h => h0 h.symm
      simp only [mapGet, h0, if_false, List.mem_cons, Prod.mk.injEq, h2, false_and, false_or]
      exact ih hnd

/-! ## C2: the threshold filter -/

/-- C2: for an aggregated mapping (a map, so with distinct keys) visited in any order, the
filter yields a record for an address exactly when the address's aggregated staked amount is at
least 400,000,000, at most one record per address, and every record carries the aggregated
amount of its address. -/
theorem filterStaked_threshold (m visited : GoMap DerivedAccount) (hm : (mapKeys m).Nodup)
    (hv : visited.Perm m) :
    ∃ out, filterStaked visited = some out ∧
      (∀ addr, (∃ r ∈ out, r.Address = addr) ↔
        ∃ acc, mapGet m addr = some acc ∧ 400000000 ≤ acc.Staked) ∧
      (out.map (fun r => r.Address)).Nodup ∧
      ∀ r ∈ out, ∃ acc, mapGet m r.Address = some acc ∧ r.Staked = acc.Staked := by
  refine ⟨_, filterStaked_eq visited, ?_, ?_, ?_⟩
  · intro addr
    constructor
    · rintro ⟨r, hr, rfl⟩
      obtain ⟨acc, hmem, h, _, _⟩ := (mem_filterMap_recordOf visited r).mp hr
      exact ⟨acc, (mapGet_eq_some_iff m hm _ _).mpr (hv.mem_iff.mp hmem), h⟩
    · rintro ⟨acc, hget, h⟩
      refine ⟨⟨addr, acc.Staked, roundHalfEven (1251 * acc.Staked) 10000000000⟩, ?_, rfl⟩
      exact (mem_filterMap_recordOf visited _).mpr
        ⟨acc, hv.mem_iff.mpr ((mapGet_eq_some_iff m hm _ _).mp hget), h, rfl, rfl⟩
  · rw [addresses_filterMap_recordOf]
    have hnd : (visited.map Prod.fst).Nodup := ((hv.map Prod.fst).nodup_iff).mpr hm
    exact List.Nodup.sublist (List.Sublist.map _ (List.filter_sublist _)) hnd
  · intro r hr
    obtain ⟨acc, hmem, _, hs, _⟩ := (mem_filterMap_recordOf visited r).mp hr
    exact ⟨acc, (mapGet_eq_some_iff m hm _ _).mpr (hv.mem_iff.mp hmem), hs⟩

/-- C2, at a map with one account at the threshold and one just below it, visited in the other
order. -/
theorem filterStaked_threshold_witness :
    (mapKeys Sample.threshold).Nodup ∧ Sample.thresholdVisited.Perm Sample.threshold ∧
      ∃ out, filterStaked Sample.thresholdVisited = some out ∧
        (∀ addr, (∃ r ∈ out, r.Address = addr) ↔
          ∃ acc, mapGet Sample.threshold addr = some acc ∧ 400000000 ≤ acc.Staked) ∧
        (out.map (fun r => r.Address)).Nodup ∧
        ∀ r ∈ out, ∃ acc, mapGet Sample.threshold r.Address = some acc ∧
          r.Staked = acc.Staked :=
  ⟨by decide, by decide,
    filterStaked_threshold Sample.threshold Sample.thresholdVisited (by decide) (by decide)⟩

/-! ## The stable sort -/

theorem insertStable_perm {α : Type} (less : α → α → Bool) (a : α) (l : List α) :
    (insertStable less a l).Perm (a :: l) := by
  induction l with
  | nil => exact List.Perm.refl _
  | cons b l ih =>
    unfold insertStable
    split_ifs
    · exact ((List.Perm.cons b ih).trans (List.Perm.swap a b l))
    · exact List.Perm.refl _

theorem sliceStable_perm {α : Type} (less : α → α → Bool) (l : List α) :
    (sliceStable less l).Perm l := by
  induction l with
  | nil => exact List.Perm.refl _
  | cons a l ih =>
    exact (insertStable_perm less a (sliceStable less l)).trans (List.Perm.cons a ih)

theorem insertStable_descending (a : StakedAccount) (l : List StakedAccount)
    (h : l.Pairwise (fun x y => y.Staked ≤ x.Staked)) :
    (insertStable stakedGT a l).Pairwise (fun x y => y.Staked ≤ x.Staked) := by
  induction l with
  | nil => simp [insertStable]
  | cons b l ih =>
    obtain ⟨hb, hl⟩ := List.pairwise_cons.mp h
    unfold insertStable
    by_cases hlt : a.Staked < b.Staked
    · simp only [stakedGT, hlt, decide_True, if_true]
      refine List.pairwise_cons.mpr ⟨?_, ih hl⟩
      intro y hy
      rcases (List.mem_cons.mp ((insertStable_perm stakedGT a l).mem_iff.mp hy)) with e | e
      · subst e; exact le_of_lt hlt
      · exact hb y e
    · simp only [stakedGT, hlt, decide_False, Bool.false_eq_true, if_false]
      refine List.pairwise_cons.mpr ⟨?_, h⟩
      intro y hy
      rcases List.mem_cons.mp hy with e | e
      · subst e; exact not_lt.mp hlt
      · exact le_trans (hb y e) (not_lt.mp hlt)

theorem sliceStable_descending (l : List StakedAccount) :
    (sliceStable stakedGT l).Pairwise (fun x y => y.Staked ≤ x.Staked) := by
  induction l with
  | nil => simp [sliceStable]
  | cons a l ih => exact insertStable_descending a _ ih

theorem insertStable_filter (v : Int) (a : StakedAccount) (l : List StakedAccount) :
    (insertStable stakedGT a l).filter (fun r => decide (r.Staked = v))
      = (a :: l).filter (fun r => decide (r.Staked = v)) := by
  induction l with
  | nil => rfl
  | cons b l ih =>
    unfold insertStable
    by_cases hlt : a.Staked < b.Staked
    · simp only [stakedGT, hlt, decide_True, if_true]
      by_cases hb : b.Staked = v
      · have ha : ¬ a.Staked = v := by omega
        simp only [List.filter_cons, hb, ha, decide_True, decide_False, if_true,
          Bool.false_eq_true, if_false] at ih ⊢
        rw [ih]
      · simp only [List.filter_cons, hb, decide_False, Bool.false_eq_true, if_false] at ih ⊢
        rw [ih]
    · simp only [stakedGT, hlt, decide_False, Bool.false_eq_true, if_false]

theorem sliceStable_filter (v : Int) (l : List StakedAccount) :
    (sliceStable stakedGT l).filter (fun r => decide (r.Staked = v))
      = l.filter (fun r => decide (r.Staked = v)) := by
  induction l with
  | nil => rfl
  | cons a l ih =>
    show (insertStable stakedGT a (sliceStable stakedGT l)).filter _ = _
    rw [insertStable_filter, List.filter_cons, List.filter_cons, ih]

theorem rankedAccounts_eq (visited : List (String × DerivedAccount)) :
    rankedAccounts visited = some (sliceStable stakedGT (visited.filterMap recordOf)) := by
  simp [rankedAccounts, filterStaked_eq]

/-! ## C3: the ranking -/

/-- C3: for every visiting sequence, the ranked records are in descending order of staked
amount (every earlier row has at least the staked amount of every later row, adjacent rows in
particular) and are a permutation of the filtered records. -/
theorem rankedAccounts_sorted_perm (visited : List (String × DerivedAccount)) :
    ∃ filtered ranked, filterStaked visited = some filtered ∧
      rankedAccounts visited = some ranked ∧
      ranked.Pairwise (fun x y => y.Staked ≤ x.Staked) ∧
      ranked.Chain' (fun x y => y.Staked ≤ x.Staked) ∧
      ranked.Perm filtered :=
  ⟨_, _, filterStaked_eq visited, rankedAccounts_eq visited, sliceStable_descending _,
    List.Pairwise.chain' (sliceStable_descending _), sliceStable_perm _ _⟩

/-! ## C4: ties -/

/-- C4 (as amended): two accounts with equal staked amounts appear in the ranked output in their
relative order among the filtered records, which is the order in which the range over the
aggregated map visited their addresses; the ranked output is a function of that visiting
sequence. -/
theorem rankedAccounts_stable (visited : List (String × DerivedAccount)) :
    ∃ filtered ranked, filterStaked visited = some filtered ∧
      rankedAccounts visited = some ranked ∧
      filtered.map (fun r => r.Address)
        = (visited.filter (fun e => decide (400000000 ≤ e.2.Staked))).map Prod.fst ∧
      ∀ v, ranked.filter (fun r => decide (r.Staked = v))
        = filtered.filter (fun r => decide (r.Staked = v)) :=
  ⟨_, _, filterStaked_eq visited, rankedAccounts_eq visited,
    addresses_filterMap_recordOf visited, fun v => sliceStable_filter v _⟩

/-- C4 as stated fails: `A` and `B` are inserted in this order with 400,000,000 staked each;
when the range over the map visits `B` first, the ranked output lists `B` before `A`. -/
theorem rankedAccounts_not_insertion_order :
    ¬ ∀ (st : StakingGenesis) (m visited : GoMap DerivedAccount) (ranked : List StakedAccount),
      aggregate st = some m → visited.Perm m → rankedAccounts visited = some ranked →
      ∀ v, (ranked.filter (fun r => decide (r.Staked = v))).map (fun r => r.Address)
        = (m.filter (fun e => decide (400000000 ≤ e.2.Staked ∧ e.2.Staked = v))).map
            Prod.fst := by
  intro hall
  have h := hall Sample.tie [("A", ⟨"A", 400000000⟩), ("B", ⟨"B", 400000000⟩)] Sample.tieVisited
    [⟨"B", 400000000, 50⟩, ⟨"A", 400000000, 50⟩] (by decide) (by decide) (by decide) 400000000
  revert h
  decide

/-! ## C5: the valuation -/

/-- C5 (as amended): every record of the output has `UsdValue` equal to
`0.1251 * Staked / 10^6`, that is `1251 * Staked / 10^10`, taken exactly and rounded to the
nearest integer, a half going to the even neighbour. -/
theorem rankedAccounts_usdValue (visited : List (String × DerivedAccount)) :
    ∃ ranked, rankedAccounts visited = some ranked ∧
      ∀ r ∈ ranked, r.UsdValue = roundHalfEven (1251 * r.Staked) 10000000000 := by
  refine ⟨_, rankedAccounts_eq visited, ?_⟩
  intro r hr
  have hr' := (sliceStable_perm stakedGT _).mem_iff.mp hr
  obtain ⟨acc, _, _, hs, hu⟩ := (mem_filterMap_recordOf visited r).mp hr'
  rw [hu, hs]

/-- C5 as stated fails: an account with 15,000,000,000 staked is worth exactly `1876.5`; the
command reports 1876, where halves rounded up would give 1877. -/
theorem rankedAccounts_usdValue_not_half_up :
    ¬ ∀ (visited : List (String × DerivedAccount)) (ranked : List StakedAccount),
      rankedAccounts visited = some ranked →
      ∀ r ∈ ranked, r.UsdValue = roundHalfUp (1251 * r.Staked) 10000000000 := by
  intro hall
  have h := hall Sample.halfValue [⟨"A", 15000000000, 1876⟩] (by decide) _
    (List.mem_singleton.mpr rfl)
  revert h
  decide

theorem validatorsPresent_uneven : ValidatorsPresent Sample.uneven := by
  intro d hd
  simp only [Sample.uneven, Sample.staking, List.mem_cons, List.mem_singleton,
    List.not_mem_nil, or_false] at hd
  rcases hd with rfl | rfl | rfl <;> exact ⟨_, rfl, by decide⟩

/-! ## C6: a delegation to an unknown validator -/

/-- C6, the command at a delegation whose operator address `W` is not in the validator index:
the aggregation panics, while the same state without the delegation aggregates to the empty
map. -/
theorem aggregate_unknown_validator :
    aggregate Sample.orphan = none ∧
      aggregate { Sample.orphan with Delegations := [] } = some [] := by
  decide

/-! ## The two totals -/

theorem tokensTwiceRounded_close (vals : List Validator) (d : Delegation) (val : Validator)
    (hv : validatorOf vals d.ValidatorAddress = some val) (h0 : val.DelegatorShares.i ≠ 0) :
    |((tokensTwiceRounded vals d : Int) : ℚ) - tokensExact vals d| ≤ 1 := by
  simp only [tokensTwiceRounded, tokensExact, hv, decValue, ← chopPrecisionAndRound_eq]
  generalize hq : Int.tdiv (d.Shares.i * val.Tokens * 10 ^ 36) val.DelegatorShares.i = q
  generalize hc : Sdk.chopPrecisionAndRound q = c
  generalize hr : Sdk.chopPrecisionAndRound c = r
  have hw : (val.DelegatorShares.i : ℚ) ≠ 0 := by exact_mod_cast h0
  have hwpos : (0 : ℚ) < |(val.DelegatorShares.i : ℚ)| := abs_pos.mpr hw
  have e1 : |(c : ℚ) * 1000000000000000000 - q| ≤ 500000000000000000 := by
    have := chopPrecisionAndRound_err q
    rw [hc] at this
    exact_mod_cast this
  have e2 : |(r : ℚ) * 1000000000000000000 - c| ≤ 500000000000000000 := by
    have := chopPrecisionAndRound_err c
    rw [hr] at this
    exact_mod_cast this
  have e3 : |(q : ℚ) - (d.Shares.i : ℚ) * val.Tokens / val.DelegatorShares.i * 10 ^ 36| < 1 := by
    have := tdiv_err (d.Shares.i * val.Tokens * 10 ^ 36) val.DelegatorShares.i h0
    rw [hq] at this
    have h' : |(q : ℚ) * val.DelegatorShares.i - d.Shares.i * val.Tokens * 10 ^ 36|
        < |(val.DelegatorShares.i : ℚ)| := by exact_mod_cast this
    have e : (q : ℚ) - (d.Shares.i : ℚ) * val.Tokens / val.DelegatorShares.i * 10 ^ 36
        = ((q : ℚ) * val.DelegatorShares.i - d.Shares.i * val.Tokens * 10 ^ 36)
          / val.DelegatorShares.i := by
      field_simp
    rw [e, abs_div]
    exact (div_lt_one hwpos).mpr h'
  have e4 : (d.Shares.i : ℚ) / 10 ^ 18 * val.Tokens / ((val.DelegatorShares.i : ℚ) / 10 ^ 18)
      = (d.Shares.i : ℚ) * val.Tokens / val.DelegatorShares.i := by
    field_simp
  rw [e4]
  generalize (d.Shares.i : ℚ) * val.Tokens / val.DelegatorShares.i = x at e3 ⊢
  rw [abs_le] at e1 e2 ⊢
  rw [abs_lt] at e3
  constructor <;> linarith [e1.1, e1.2, e2.1, e2.2, e3.1, e3.2]

theorem sum_close (vals : List Validator) (ds : List Delegation)
    (h : ∀ d ∈ ds, ∃ val, validatorOf vals d.ValidatorAddress = some val ∧
      val.DelegatorShares.i ≠ 0) :
    |(((ds.map (tokensTwiceRounded vals)).sum : Int) : ℚ) - (ds.map (tokensExact vals)).sum|
      ≤ (ds.length : ℚ) := by
  induction ds with
  | nil => simp
  | cons d rest ih =>
    obtain ⟨val, hv, h0⟩ := h d (List.mem_cons_self _ _)
    have h1 := tokensTwiceRounded_close vals d val hv h0
    have h2 := ih (fun d' hd' => h d' (List.mem_cons_of_mem _ hd'))
    simp only [List.map_cons, List.sum_cons, List.length_cons, Int.cast_add, Nat.cast_add,
      Nat.cast_one]
    rw [abs_le] at h1 h2 ⊢
    constructor <;> linarith [h1.1, h1.2, h2.1, h2.2]

theorem sum_select {V : Type} (m : GoMap V) (hm : (mapKeys m).Nodup) (k : String) (v : V)
    (hk : mapGet m k = some v) (f : String × V → ℚ) :
    (m.map (fun e => if k = e.1 then f e else 0)).sum = f (k, v) := by
  induction m with
  | nil => simp [mapGet] at hk
  | cons e rest ih =>
    obtain ⟨k0, v0⟩ := e
    have hnd : (mapKeys rest).Nodup := (List.nodup_cons.mp hm).2
    have hk0 : k0 ∉ mapKeys rest := (List.nodup_cons.mp hm).1
    by_cases h0 : k0 = k
    · subst h0
      have hv : v0 = v := by simpa [mapGet] using hk
      subst hv
      have hz : (rest.map (fun e => if k0 = e.1 then f e else 0)).sum = 0 := by
        apply List.sum_eq_zero
        intro x hx
        obtain ⟨e, he, rfl⟩ := List.mem_map.mp hx
        have : ¬ k0 = e.1 := fun h => hk0 (h ▸ List.mem_map.mpr ⟨e, he, rfl⟩)
        simp [this]
      simp [hz]
    · have h2 : ¬ k = k0 := fun h => h0 h.symm
      have hk' : mapGet rest k = some v := by simpa [mapGet, h0] using hk
      simp [h2, ih hnd hk']

theorem validatorSide_eq (vals : List Validator) (ds : List Delegation)
    (h : ∀ d ∈ ds, ∃ val, validatorOf vals d.ValidatorAddress = some val ∧
      val.DelegatorShares.i ≠ 0) :
    ((validatorIndex vals).map (fun e =>
      ((ds.filter (fun d => d.ValidatorAddress = e.1)).map (fun d => decValue d.Shares)).sum
        * (e.2.Tokens : ℚ) / decValue e.2.DelegatorShares)).sum
      = (ds.map (tokensExact vals)).sum := by
  induction ds with
  | nil => simp
  | cons d rest ih =>
    obtain ⟨val, hv, _⟩ := h d (List.mem_cons_self _ _)
    have hrest := ih (fun d' hd' => h d' (List.mem_cons_of_mem _ hd'))
    have hsel := sum_select (validatorIndex vals) (nodup_validatorIndex vals)
      d.ValidatorAddress val (by rw [mapGet_validatorIndex, hv])
      (fun e => decValue d.Shares * (e.2.Tokens : ℚ) / decValue e.2.DelegatorShares)
    have hsplit : ∀ e : String × Validator,
        (((d :: rest).filter (fun d => d.ValidatorAddress = e.1)).map
            (fun d => decValue d.Shares)).sum
          * (e.2.Tokens : ℚ) / decValue e.2.DelegatorShares
        = (if d.ValidatorAddress = e.1 then
            decValue d.Shares * (e.2.Tokens : ℚ) / decValue e.2.DelegatorShares else 0)
          + ((rest.filter (fun d => d.ValidatorAddress = e.1)).map
              (fun d => decValue d.Shares)).sum
            * (e.2.Tokens : ℚ) / decValue e.2.DelegatorShares := by
      intro e
      by_cases he : d.ValidatorAddress = e.1
      · simp [List.filter_cons, he]; ring
      · simp [List.filter_cons, he]
    simp only [hsplit, List.sum_map_add, hrest, hsel, List.map_cons, List.sum_cons]
    simp [tokensExact, hv]

/-! ## C7: delegator side against validator side -/

/-- C7 (as amended): when every delegation references a validator that is present with
non-zero delegator shares, and no product, quotient or running total of the loop leaves the
range of the sdk, the sum over all delegators of the aggregated staked amount differs from the
sum over all validators of the validator's total assigned delegation shares converted to tokens
at `tokens / shares` by at most the number of delegations. -/
theorem aggregate_totals_close (st : StakingGenesis) (h : ValidatorsPresent st)
    (hr : WithinRange st) :
    ∃ m, aggregate st = some m ∧
      |((delegatorSide m : Int) : ℚ) - validatorSide st| ≤ (st.Delegations.length : ℚ) := by
  obtain ⟨m, hloop, _, _, hsum⟩ := aggregate_spec st h hr
  refine ⟨m, hloop, ?_⟩
  rw [hsum]
  unfold validatorSide
  rw [validatorSide_eq st.Validators st.Delegations h]
  exact sum_close st.Validators st.Delegations h

/-- C7, at two validators with uneven rates and three delegations. -/
theorem aggregate_totals_close_witness :
    ValidatorsPresent Sample.uneven ∧ WithinRange Sample.uneven ∧
      ∃ m, aggregate Sample.uneven = some m ∧
        |((delegatorSide m : Int) : ℚ) - validatorSide Sample.uneven|
          ≤ (Sample.uneven.Delegations.length : ℚ) :=
  ⟨validatorsPresent_uneven, withinRange_uneven,
    aggregate_totals_close Sample.uneven validatorsPresent_uneven withinRange_uneven⟩

/-- C7 as stated fails: with one validator of 10^50 tokens for 10^50 shares and one delegation
of 10^30 shares, both non-zero, `MulInt` leaves the range of the sdk and the command panics:
there are no aggregated amounts to compare. -/
theorem aggregate_totals_not_total :
    ¬ ∀ st : StakingGenesis, ValidatorsPresent st →
      ∃ m, aggregate st = some m ∧
        |((delegatorSide m : Int) : ℚ) - validatorSide st| ≤ (st.Delegations.length : ℚ) := by
  intro hall
  obtain ⟨m, hm, _⟩ := hall Sample.overflow validatorsPresent_overflow
  rw [aggregate_overflow] at hm
  cases hm

/-! ## Coins -/

theorem coinsTotal_append (a b : Coins) (denom : String) :
    coinsTotal (a ++ b) denom = coinsTotal a denom + coinsTotal b denom := by
  simp [coinsTotal, List.filter_append]

theorem coinsTotal_cons (c : Coin) (rest : Coins) (denom : String) :
    coinsTotal (c :: rest) denom
      = (if c.Denom = denom then c.Amount else 0) + coinsTotal rest denom := by
  by_cases h : c.Denom = denom <;> simp [coinsTotal, List.filter_cons, h]

theorem coinsTotal_removeZeroCoins (coins : Coins) (denom : String) :
    coinsTotal (removeZeroCoins coins) denom = coinsTotal coins denom := by
  induction coins with
  | nil => rfl
  | cons c rest ih =>
    by_cases hz : c.Amount = 0
    · have : removeZeroCoins (c :: rest) = removeZeroCoins rest := by
        simp [removeZeroCoins, List.filter_cons, Coin.IsZero, hz]
      rw [this, ih, coinsTotal_cons, hz]
      simp
    · have : removeZeroCoins (c :: rest) = c :: removeZeroCoins rest := by
        simp [removeZeroCoins, List.filter_cons, Coin.IsZero, hz]
      rw [this, coinsTotal_cons, coinsTotal_cons, ih]

theorem coinsTotal_push (sum : Coins) (c : Coin) (denom : String) :
    coinsTotal (if c.IsZero then sum else sum ++ [c]) denom
      = coinsTotal sum denom + (if c.Denom = denom then c.Amount else 0) := by
  by_cases hz : c.Amount = 0
  · simp [Coin.IsZero, hz]
  · have : c.IsZero = false := by simp [Coin.IsZero, hz]
    rw [this]
    simp only [Bool.false_eq_true, if_false, coinsTotal_append, coinsTotal_cons]
    simp [coinsTotal]

theorem coinsTotal_safeAddLoop (denom : String) :
    ∀ (fuel : Nat) (sum a b : Coins), a.length + b.length < fuel →
      coinsTotal (safeAddLoop fuel sum a b) denom
        = coinsTotal sum denom + coinsTotal a denom + coinsTotal b denom := by
  intro fuel
  induction fuel with
  | zero => intro sum a b h; omega
  | succ fuel ih =>
    intro sum a b h
    cases a with
    | nil =>
      cases b with
      | nil => simp [safeAddLoop, coinsTotal]
      | cons coinB restB =>
        simp only [safeAddLoop, coinsTotal_append, coinsTotal_removeZeroCoins]
        simp [coinsTotal]
    | cons coinA restA =>
      cases b with
      | nil =>
        simp only [safeAddLoop, coinsTotal_append, coinsTotal_removeZeroCoins]
        simp [coinsTotal]
      | cons coinB restB =>
        simp only [List.length_cons] at h
        rw [safeAddLoop]
        by_cases h1 : denomLess coinA.Denom coinB.Denom = true
        · rw [if_pos h1, ih _ _ _ (by simp only [List.length_cons]; omega), coinsTotal_push,
            coinsTotal_cons coinA]
          ring
        · rw [if_neg h1]
          by_cases h2 : coinA.Denom = coinB.Denom
          · rw [if_pos h2, ih _ _ _ (by omega), coinsTotal_push, coinsTotal_cons coinA,
              coinsTotal_cons coinB]
            simp only [Coin.Add, h2]
            by_cases hd : coinB.Denom = denom
            · simp only [hd, if_true]; ring
            · simp only [hd, if_false]; ring
          · rw [if_neg h2, ih _ _ _ (by simp only [List.length_cons]; omega), coinsTotal_push,
              coinsTotal_cons coinB]
            ring

theorem coinsTotal_coinsAdd (a b : Coins) (denom : String) :
    coinsTotal (coinsAdd a b) denom = coinsTotal a denom + coinsTotal b denom := by
  unfold coinsAdd
  rw [coinsTotal_safeAddLoop denom _ _ _ _ (by omega)]
  simp [coinsTotal]

theorem balancesTotal_append (a b : List Balance) (denom : String) :
    balancesTotal (a ++ b) denom = balancesTotal a denom + balancesTotal b denom := by
  simp [balancesTotal]

theorem supplyMatches_bank : SupplyMatches Sample.bank := by
  intro denom
  by_cases h : "ubtsg" = denom <;>
    simp [Sample.bank, balancesTotal, coinsTotal, List.filter_cons, h]

/-! ## C8: the bank invariant after the funding step -/

/-- C8: when the balances of the input bank state sum to its supply in every denomination, so
do the balances of the bank state that the genutils command stores after the funding step. -/
theorem genutils_bank_supplyMatches (bankGenesis : BankGenesis)
    (stakingGenesis : StakingGenesis)
    (newValOwner newValOperator pubKey valOper2 bondedPoolAddr notBondedPoolAddr : String)
    (h : SupplyMatches bankGenesis) :
    SupplyMatches (Genutils.exportUpgradedGenesis bankGenesis stakingGenesis newValOwner
      newValOperator pubKey valOper2 bondedPoolAddr notBondedPoolAddr).1 := by
  intro denom
  simp only [Genutils.exportUpgradedGenesis, Genutils.bankStep, balancesTotal_append,
    coinsTotal_coinsAdd, h denom]
  simp [balancesTotal]

/-- C8, at a bank state whose one balance of 5 ubtsg is the whole supply. -/
theorem genutils_bank_supplyMatches_witness :
    SupplyMatches Sample.bank ∧
      SupplyMatches (Genutils.exportUpgradedGenesis Sample.bank Sample.scenario "owner"
        "operator" "key" "operator2" "bonded" "notbonded").1 :=
  ⟨supplyMatches_bank, genutils_bank_supplyMatches Sample.bank Sample.scenario "owner"
    "operator" "key" "operator2" "bonded" "notbonded" supplyMatches_bank⟩

/-! ## C9: the funding step of the two commands -/

/-- C9, the two commands at one bank state: the bitsongd command appends the owner's balance
and leaves the supply at 5 ubtsg; the genutils command appends the same balance and raises the
supply to 1,000,000,005 ubtsg. -/
theorem bitsongd_bank_supply_unchanged :
    Bitsongd.bankStep Sample.bank "owner"
        = { Balances := Sample.bank.Balances ++ [⟨"owner", [⟨"ubtsg", 1000000000⟩]⟩],
            Supply := [⟨"ubtsg", 5⟩] } ∧
      Genutils.bankStep Sample.bank "owner"
        = { Balances := Sample.bank.Balances ++ [⟨"owner", [⟨"ubtsg", 1000000000⟩]⟩],
            Supply := [⟨"ubtsg", 1000000005⟩] } ∧
      ¬ SupplyMatches (Bitsongd.bankStep Sample.bank "owner") := by
  refine ⟨by decide, by decide, ?_⟩
  intro h
  have := h "ubtsg"
  revert this
  decide

/-! ## C10: the delegation of the upgraded genesis -/

/-- C10, the genutils command at a bank state whose bonded pool holds 5 ubtsg: the bonded
validator gets 5 tokens and 5 delegator shares, the one delegation gets 100,000,000 shares. -/
theorem genutils_delegation_shares_fixed :
    (Genutils.exportUpgradedGenesis Sample.bank Sample.scenario "owner" "operator" "key"
        "operator2" "bonded" "notbonded").2.Delegations
      = [⟨"owner", "operator", Sdk.NewDec 100000000⟩] ∧
    (Genutils.exportUpgradedGenesis Sample.bank Sample.scenario "owner" "operator" "key"
        "operator2" "bonded" "notbonded").2.Validators.map
        (fun v => (v.OperatorAddress, v.Tokens, v.DelegatorShares))
      = [("operator", 5, Sdk.NewDec 5), ("operator2", 0, Sdk.NewDec 0)] ∧
    Sdk.NewDec 100000000 ≠ Sdk.NewDec 5 := by
  decide

/-! ## C11: starting infos against delegations -/

/-- C11, the genutils command at a bank state whose bonded pool holds 5 ubtsg and a generated
key `k2`: the distribution state gets two starting-info records, the staking state one
delegation; the record of the delegation has stake 5, while the delegation converts to
100,000,000 tokens (the aggregation of the resulting staking state), and the record of the
generated operator has no delegation. -/
theorem genutils_starting_infos_mismatch :
    (Genutils.upgradedGenState Sample.addresses Sample.accounts Sample.bank Sample.scenario
        Sample.distribution "owner" "operator" "key" "k2" "bonded" "notbonded").map
        (fun g => (g.distribution.DelegatorStartingInfos, g.staking.Delegations,
          aggregate g.staking))
      = some
        ([⟨"owner", "operator", ⟨0, 1, Sdk.ToDec 5⟩⟩,
          ⟨"acc:k2", "valoper:k2", ⟨0, 1, Sdk.ToDec 0⟩⟩],
         [⟨"owner", "operator", Sdk.NewDec 100000000⟩],
         some [("owner", ⟨"owner", 100000000⟩)]) ∧
      Sdk.ToDec 5 ≠ Sdk.ToDec 100000000 := by
  decide

/-! ## C12: the appended account -/

theorem authStep_eq (addresses : Addresses) (accounts : List BaseAccount)
    (newValOwner accValOwner : String)
    (h : addresses.AccAddressFromBech32 newValOwner = some accValOwner) :
    Genutils.authStep addresses accounts newValOwner
      = some (SanitizeGenesisAccounts accounts ++ [NewBaseAccount accValOwner none 0 0]) := by
  simp only [Genutils.authStep, h]

/-- C12 (as amended): for every auth state and every decodable owner address the command
appends a new base account (sequence 0, account number 0, no public key) behind the sanitized
accounts, whether or not the owner address is already present: the list grows by one entry and
holds one more account with the owner address than before. -/
theorem genutils_auth_always_appends (addresses : Addresses) (accounts : List BaseAccount)
    (newValOwner accValOwner : String)
    (h : addresses.AccAddressFromBech32 newValOwner = some accValOwner) :
    ∃ out, Genutils.authStep addresses accounts newValOwner = some out ∧
      out = SanitizeGenesisAccounts accounts ++ [NewBaseAccount accValOwner none 0 0] ∧
      out.Perm (accounts ++ [NewBaseAccount accValOwner none 0 0]) ∧
      out.length = accounts.length + 1 ∧
      (out.filter (fun a => decide (a.Address = accValOwner))).length
        = (accounts.filter (fun a => decide (a.Address = accValOwner))).length + 1 := by
  have hperm : (SanitizeGenesisAccounts accounts ++ [NewBaseAccount accValOwner none 0 0]).Perm
      (accounts ++ [NewBaseAccount accValOwner none 0 0]) :=
    List.Perm.append_right _ (sliceStable_perm accountNumberLess accounts)
  refine ⟨_, authStep_eq addresses accounts newValOwner accValOwner h, rfl, hperm, ?_, ?_⟩
  · rw [hperm.length_eq]
    simp
  · rw [(hperm.filter _).length_eq]
    simp [List.filter_append, NewBaseAccount]

/-- C12, at an auth state that already holds an account with the owner address. -/
theorem genutils_auth_always_appends_witness :
    Sample.addresses.AccAddressFromBech32 "owner" = some "owner" ∧
      ∃ out, Genutils.authStep Sample.addresses Sample.accounts "owner" = some out ∧
        out = SanitizeGenesisAccounts Sample.accounts ++ [NewBaseAccount "owner" none 0 0] ∧
        out.Perm (Sample.accounts ++ [NewBaseAccount "owner" none 0 0]) ∧
        out.length = Sample.accounts.length + 1 ∧
        (out.filter (fun a => decide (a.Address = "owner"))).length
          = (Sample.accounts.filter (fun a => decide (a.Address = "owner"))).length + 1 :=
  ⟨rfl, genutils_auth_always_appends Sample.addresses Sample.accounts "owner" "owner" rfl⟩

/-- C12 as stated fails: when the auth state already holds an account with the owner address,
the command still appends the new account and the list holds two accounts with that address. -/
theorem genutils_auth_not_conditional :
    ¬ ∀ (addresses : Addresses) (accounts : List BaseAccount) (newValOwner accValOwner : String),
      addresses.AccAddressFromBech32 newValOwner = some accValOwner →
      ∃ out, Genutils.authStep addresses accounts newValOwner = some out ∧
        ((∃ a ∈ accounts, a.Address = accValOwner) → out.length = accounts.length) ∧
        (out.filter (fun a => decide (a.Address = accValOwner))).length ≤ 1 := by
  intro hall
  obtain ⟨out, hout, _, hcount⟩ := hall Sample.addresses Sample.accounts "owner" "owner" rfl
  have hstep : Genutils.authStep Sample.addresses Sample.accounts "owner"
      = some [⟨"owner", none, 7, 3⟩, ⟨"owner", none, 0, 0⟩] := by decide
  rw [hstep] at hout
  have : out = [⟨"owner", none, 7, 3⟩, ⟨"owner", none, 0, 0⟩] := (Option.some.inj hout).symm
  subst this
  revert hcount
  decide

/-! ## C13: a failed write -/

/-- C13, the command at a failing `ioutil.WriteFile` and at a failing `os.Create`: in the first
run `writeGenStateToPath` returns nil, in the second it returns the wrapped error; the command
returns nil in both. -/
theorem genutils_write_error_dropped :
    Genutils.writeGenStateToPath Sample.writeFails.write = none ∧
      Genutils.runE Sample.writeFails = none ∧
      Genutils.writeGenStateToPath Sample.createFails.write
        = some "failed to open file: permission denied" ∧
      Genutils.runE Sample.createFails = none := by
  decide

/-! ## C14: the consensus keys of the two validators -/

/-- C14: whenever the command gets past the owner address, its two validators both carry the
supplied public key as consensus key, the second one under the operator address of the
generated key; with another generated key the command yields the same states but for that
operator address and the two addresses of the second starting-info record. -/
theorem genutils_validators_same_key (addresses : Addresses) (accounts : List BaseAccount)
    (bankGenesis : BankGenesis) (stakingGenesis : StakingGenesis) (distrGenesis : DistrGenesis)
    (newValOwner newValOperator pubKey valPriv2 bondedPoolAddr notBondedPoolAddr : String)
    (g : Genutils.GenState)
    (h : Genutils.upgradedGenState addresses accounts bankGenesis stakingGenesis distrGenesis
      newValOwner newValOperator pubKey valPriv2 bondedPoolAddr notBondedPoolAddr = some g) :
    (∃ v1 v2, g.staking.Validators = [v1, v2] ∧
      v1.ConsensusPubkey = some pubKey ∧ v2.ConsensusPubkey = some pubKey ∧
      v1.OperatorAddress = newValOperator ∧
      v2.OperatorAddress = addresses.valAddress valPriv2) ∧
    ∀ other : String, ∃ g',
      Genutils.upgradedGenState addresses accounts bankGenesis stakingGenesis distrGenesis
        newValOwner newValOperator pubKey other bondedPoolAddr notBondedPoolAddr = some g' ∧
      g'.auth = g.auth ∧ g'.bank = g.bank ∧
      g'.staking.Delegations = g.staking.Delegations ∧
      g'.staking.Validators.map (fun v => { v with OperatorAddress := "" })
        = g.staking.Validators.map (fun v => { v with OperatorAddress := "" }) ∧
      g'.distribution.DelegatorStartingInfos.head? = g.distribution.DelegatorStartingInfos.head? ∧
      g'.distribution.DelegatorStartingInfos.map (fun r => r.StartingInfo)
        = g.distribution.DelegatorStartingInfos.map (fun r => r.StartingInfo) ∧
      { g'.distribution with DelegatorStartingInfos := [] }
        = { g.distribution with DelegatorStartingInfos := [] } := by
  unfold Genutils.upgradedGenState at h
  cases hauth : Genutils.authStep addresses accounts newValOwner with
  | none => rw [hauth] at h; cases h
  | some auth =>
    rw [hauth] at h
    simp only [Option.some.injEq] at h
    subst h
    refine ⟨⟨_, _, rfl, rfl, rfl, rfl, rfl⟩, ?_⟩
    intro other
    have hother : Genutils.upgradedGenState addresses accounts bankGenesis stakingGenesis
        distrGenesis newValOwner newValOperator pubKey other bondedPoolAddr notBondedPoolAddr
        = some
          { auth := auth,
            bank := Genutils.bankStep bankGenesis newValOwner,
            staking :=
              Genutils.stakingStep stakingGenesis
                (Genutils.poolCoins bondedPoolAddr notBondedPoolAddr
                  (Genutils.bankStep bankGenesis newValOwner).Balances).1
                (Genutils.poolCoins bondedPoolAddr notBondedPoolAddr
                  (Genutils.bankStep bankGenesis newValOwner).Balances).2
                newValOwner newValOperator (addresses.valAddress other) (some pubKey)
                (some pubKey),
            distribution :=
              Genutils.distributionStep distrGenesis
                (Genutils.poolCoins bondedPoolAddr notBondedPoolAddr
                  (Genutils.bankStep bankGenesis newValOwner).Balances).1
                (Genutils.poolCoins bondedPoolAddr notBondedPoolAddr
                  (Genutils.bankStep bankGenesis newValOwner).Balances).2
                newValOwner newValOperator (addresses.valAddress other)
                (addresses.accAddress other) (addresses.consAddress pubKey) } := by
      unfold Genutils.upgradedGenState
      rw [hauth]
    exact ⟨_, hother, rfl, rfl, rfl, rfl, rfl, rfl, rfl⟩

/-- C14, at a bank state whose bonded pool holds 5 ubtsg and the generated key `k2`. -/
theorem genutils_validators_same_key_witness :
    ∃ g, Genutils.upgradedGenState Sample.addresses Sample.accounts Sample.bank Sample.scenario
        Sample.distribution "owner" "operator" "key" "k2" "bonded" "notbonded" = some g ∧
      g.staking.Validators.map (fun v => (v.OperatorAddress, v.ConsensusPubkey))
        = [("operator", some "key"), ("valoper:k2", some "key")] ∧
      ((∃ v1 v2, g.staking.Validators = [v1, v2] ∧
        v1.ConsensusPubkey = some "key" ∧ v2.ConsensusPubkey = some "key" ∧
        v1.OperatorAddress = "operator" ∧
        v2.OperatorAddress = Sample.addresses.valAddress "k2") ∧
      ∀ other : String, ∃ g',
        Genutils.upgradedGenState Sample.addresses Sample.accounts Sample.bank Sample.scenario
          Sample.distribution "owner" "operator" "key" other "bonded" "notbonded" = some g' ∧
        g'.auth = g.auth ∧ g'.bank = g.bank ∧
        g'.staking.Delegations = g.staking.Delegations ∧
        g'.staking.Validators.map (fun v => { v with OperatorAddress := "" })
          = g.staking.Validators.map (fun v => { v with OperatorAddress := "" }) ∧
        g'.distribution.DelegatorStartingInfos.head?
          = g.distribution.DelegatorStartingInfos.head? ∧
        g'.distribution.DelegatorStartingInfos.map (fun r => r.StartingInfo)
          = g.distribution.DelegatorStartingInfos.map (fun r => r.StartingInfo) ∧
        { g'.distribution with DelegatorStartingInfos := [] }
          = { g.distribution with DelegatorStartingInfos := [] }) :=
  ⟨_, rfl, by decide,
    genutils_validators_same_key Sample.addresses Sample.accounts Sample.bank Sample.scenario
      Sample.distribution "owner" "operator" "key" "k2" "bonded" "notbonded" _ rfl⟩

end GenesisTools
